import Mathlib

/-!
Verification of the RPGMLocalizer extraction/injection core.

The Python sources are shallowly embedded over `List Char` (Python `str`
values are sequences of unicode code points, which `List Char` models
directly).  Python regular-expression operations that the code uses are
embedded as hand-written scanners implementing the semantics of the
specific concrete patterns (leftmost match, branch order, greedy classes),
as noted at each definition.  All scanners are written with an explicit
fuel argument (the input length) so that every definition evaluates by
kernel reduction.
-/

namespace RPGM

/-- Strings are modelled as lists of characters. -/
abbrev Str := List Char

/-- Python `\s` whitespace class restricted to the ASCII whitespace
characters (the only whitespace characters appearing in the data the
claims touch). -/
def isPyWs (c : Char) : Bool :=
  c = ' ' ∨ c = '\t' ∨ c = '\n' ∨ c = '\r' ∨ c = '\x0b' ∨ c = '\x0c'

/-- ASCII lowercase letter test. -/
def isAsciiLower (c : Char) : Bool := 'a' ≤ c ∧ c ≤ 'z'

/-- ASCII uppercase letter test. -/
def isAsciiUpper (c : Char) : Bool := 'A' ≤ c ∧ c ≤ 'Z'

/-- ASCII letter test (Python `[a-zA-Z]`). -/
def isAsciiLetter (c : Char) : Bool := isAsciiLower c ∨ isAsciiUpper c

/-- ASCII digit test (Python `\d` on the ASCII range). -/
def isAsciiDigit (c : Char) : Bool := '0' ≤ c ∧ c ≤ '9'

/-- Model of Python `str.lower` on one character: ASCII case mapping
(the embedded code only compares ASCII pattern letters case-insensitively). -/
def pyLowerChar (c : Char) : Char :=
  if isAsciiUpper c then Char.ofNat (c.toNat + 32) else c

/-- Model of Python `str.upper` on one character: ASCII case mapping plus
the Cyrillic and Greek lowercase ranges (the ranges the placeholder
restore phase inspects). -/
def pyUpperChar (c : Char) : Char :=
  if isAsciiLower c then Char.ofNat (c.toNat - 32)
  else if 0x430 ≤ c.toNat ∧ c.toNat ≤ 0x44F then Char.ofNat (c.toNat - 32)
  else if 0x3B1 ≤ c.toNat ∧ c.toNat ≤ 0x3C9 ∧ c.toNat ≠ 0x3C2 then Char.ofNat (c.toNat - 32)
  else c

/-- Python `str.lower` over the embedded string. -/
def pyLower (s : Str) : Str := s.map pyLowerChar

/-- Python `str.upper` over the embedded string. -/
def pyUpper (s : Str) : Str := s.map pyUpperChar

/-- Case-insensitive character comparison for the ASCII pattern letters
used by `re.IGNORECASE` matching in the embedded regexes. -/
def ciEq (a b : Char) : Bool := pyLowerChar a = pyLowerChar b

/-- Python `in` on strings: substring containment. -/
def containsSub (pat : Str) : Str → Bool
  | [] => pat.isPrefixOf []
  | c :: cs => pat.isPrefixOf (c :: cs) || containsSub pat cs

/-- Fuel-driven worker for Python `str.replace` (all non-overlapping
occurrences, scanning left to right). -/
def pyReplaceAux (pat rep : Str) : Nat → Str → Str
  | 0, s => s
  | _, [] => []
  | Nat.succ f, c :: cs =>
    if pat ≠ [] ∧ pat.isPrefixOf (c :: cs) then
      rep ++ pyReplaceAux pat rep f ((c :: cs).drop pat.length)
    else
      c :: pyReplaceAux pat rep f cs

/-- Python `str.replace(pat, rep)` (`pat` nonempty in all uses). -/
def pyReplace (pat rep s : Str) : Str := pyReplaceAux pat rep s.length s

/-- Python `str.strip()` restricted to the modelled whitespace class. -/
def pyStrip (s : Str) : Str :=
  (s.dropWhile isPyWs).reverse.dropWhile isPyWs |>.reverse

/-- Python `str.startswith`. -/
def pyStartsWith (pat s : Str) : Bool := pat.isPrefixOf s

/-- Python `str.endswith`. -/
def pyEndsWith (pat s : Str) : Bool := pat.isSuffixOf s

/-!
## Path-segment codec (`JsonParser._escape_path_key` / `_unescape_path_key`)

From `src/core/parsers/json_parser.py` lines 115-145.
-/

def PATH_DOT_ESCAPE : Str := "__DOT__".data

def PATH_DOT_ESCAPE_ESC : Str := "__DOT_ESC__".data

/-- `JsonParser._escape_path_key` for string keys: first replace the
escape token by its escaped form, then replace dots by the escape token. -/
def escapePathKey (key : Str) : Str :=
  pyReplace ".".data PATH_DOT_ESCAPE (pyReplace PATH_DOT_ESCAPE PATH_DOT_ESCAPE_ESC key)

/-- `JsonParser._unescape_path_key` for string keys: first replace the
escaped form back to the escape token, then replace the escape token by a
dot (in this order, as in the source). -/
def unescapePathKey (key : Str) : Str :=
  pyReplace PATH_DOT_ESCAPE ".".data (pyReplace PATH_DOT_ESCAPE_ESC PATH_DOT_ESCAPE key)

/-!
## Backslash-space repair on injection (`JsonParser.apply_translation`)

From `src/core/parsers/json_parser.py` line 899:
`re.sub(r'\\ \s+([a-zA-Z{}])', r'\\\1', trans_text)`.
The pattern is: a literal backslash, a literal space, then one or more
further whitespace characters, then an ASCII letter or brace.  The
replacement drops the whitespace run.  The scanner below implements that
regex's leftmost-match semantics (the `\s+` class is maximal-munch here
because a class character can never satisfy the following letter/brace
position).
-/

/-- Characters accepted by the group `([a-zA-Z{}])` of the repair regex. -/
def isRepairTarget (c : Char) : Bool :=
  isAsciiLetter c ∨ c = '\x7b' ∨ c = '\x7d'

/-- Fuel-driven worker for the repair substitution. -/
def fixTranslationSpacingAux : Nat → Str → Str
  | 0, s => s
  | _, [] => []
  | Nat.succ f, c :: cs =>
    if c = '\\' then
      match cs with
      | ' ' :: rest =>
        let w := rest.takeWhile isPyWs
        let r := rest.dropWhile isPyWs
        if w ≠ [] then
          match r with
          | x :: r' =>
            if isRepairTarget x then '\\' :: x :: fixTranslationSpacingAux f r'
            else c :: fixTranslationSpacingAux f cs
          | [] => c :: fixTranslationSpacingAux f cs
        else c :: fixTranslationSpacingAux f cs
      | _ => c :: fixTranslationSpacingAux f cs
    else c :: fixTranslationSpacingAux f cs

/-- The hardening substitution applied to every translated string value in
`JsonParser.apply_translation`. -/
def fixTranslationSpacing (s : Str) : Str := fixTranslationSpacingAux s.length s

/-!
## Text merger (`src/core/text_merger.py`, `src/core/constants.py`)
-/

/-- `TOKEN_LINE_BREAK` from `constants.py`. -/
def TOKEN_LINE_BREAK : Str := "|||XLB|||".data

/-- Case-insensitive prefix test (ASCII case folding, as used by the
`re.IGNORECASE` matchers below). -/
def ciPrefixOf : Str → Str → Bool
  | [], _ => true
  | _ :: _, [] => false
  | p :: ps, c :: cs => ciEq p c && ciPrefixOf ps cs

/-- Consume one expected character, case-insensitively. -/
def eatCi (c : Char) : Str → Option Str
  | [] => none
  | x :: xs => if ciEq x c then some xs else none

/-- Consume one expected character exactly. -/
def eatCh (c : Char) : Str → Option Str
  | [] => none
  | x :: xs => if x = c then some xs else none

/-- Consume a literal, case-sensitively. -/
def eatLit (lit : Str) (s : Str) : Option Str :=
  if lit.isPrefixOf s then some (s.drop lit.length) else none

/-- Consume a literal, case-insensitively. -/
def eatLitCi (lit : Str) (s : Str) : Option Str :=
  if ciPrefixOf lit s then some (s.drop lit.length) else none

/-- Consume a maximal (possibly empty) whitespace run (`\s*`). -/
def eatWsStar (s : Str) : Str := s.dropWhile isPyWs

/-- Consume a maximal pipe run of length at least two (`\|{2,}`; maximal
munch is exact here because the following pattern position can never
accept a pipe). -/
def eatPipes2 (s : Str) : Option Str :=
  if (s.takeWhile (· = '|')).length ≥ 2 then some (s.dropWhile (· = '|')) else none

/-- Generic worker for `re.sub` with one of the concrete patterns below:
the matcher returns the rest of the input after a match starting at the
current position; on failure the scan advances one character.  This is
the leftmost-match, scan-forward semantics of `re.sub`. -/
def subAllAux (m : Str → Option Str) (rep : Str) : Nat → Str → Str
  | 0, s => s
  | _, [] => []
  | Nat.succ f, c :: cs =>
    match m (c :: cs) with
    | some rest => rep ++ subAllAux m rep f rest
    | none => c :: subAllAux m rep f cs

/-- `re.sub` driver with fuel `s.length`. -/
def subAll (m : Str → Option Str) (rep : Str) (s : Str) : Str :=
  subAllAux m rep s.length s

/-- Matcher for `r'X\s*R\s*P\s*Y\s*X\s*L\s*B'` with `re.IGNORECASE`. -/
def matchSpacedXRPYXLB (s : Str) : Option Str := do
  let s ← eatCi 'X' s
  let s ← eatCi 'R' (eatWsStar s)
  let s ← eatCi 'P' (eatWsStar s)
  let s ← eatCi 'Y' (eatWsStar s)
  let s ← eatCi 'X' (eatWsStar s)
  let s ← eatCi 'L' (eatWsStar s)
  eatCi 'B' (eatWsStar s)

/-- Matcher for `r'\|{2,}\s*XRPYXLB\s*\|{2,}'` (case-sensitive). -/
def matchPipesXRPYXLBPipes (s : Str) : Option Str := do
  let s ← eatPipes2 s
  let s ← eatLit "XRPYXLB".data (eatWsStar s)
  eatPipes2 (eatWsStar s)

/-- Matcher for `r'<\s*XRPYX_LB\s*>'` (case-sensitive). -/
def matchAngleXRPYXLB (s : Str) : Option Str := do
  let s ← eatCh '<' s
  let s ← eatLit "XRPYX_LB".data (eatWsStar s)
  eatCh '>' (eatWsStar s)

/-- Matcher for `r'<\s*X\s*R\s*P\s*Y\s*X\s*_?\s*L\s*B\s*>'` with
`re.IGNORECASE` (the optional underscore is deterministic because an
underscore can never satisfy the following `L` position). -/
def matchAngleSpaced (s : Str) : Option Str := do
  let s ← eatCh '<' s
  let s ← eatCi 'X' (eatWsStar s)
  let s ← eatCi 'R' (eatWsStar s)
  let s ← eatCi 'P' (eatWsStar s)
  let s ← eatCi 'Y' (eatWsStar s)
  let s ← eatCi 'X' (eatWsStar s)
  let s := eatWsStar s
  let s := match eatCh '_' s with | some r => r | none => s
  let s ← eatCi 'L' (eatWsStar s)
  let s ← eatCi 'B' (eatWsStar s)
  eatCh '>' (eatWsStar s)

/-- Matcher for `r'\|{2,}\s*XLB\s*\|{2,}'` with `re.IGNORECASE`. -/
def matchPipesXLBPipes (s : Str) : Option Str := do
  let s ← eatPipes2 s
  let s ← eatLitCi "XLB".data (eatWsStar s)
  eatPipes2 (eatWsStar s)

/-- `TextMerger._normalize_line_break_tokens`. -/
def normalizeLineBreakTokens (text : Str) : Str :=
  if text = [] then text
  else
    let n1 :=
      if containsSub "[[XRPYX_LB_XRPYX]]".data text then
        pyReplace "[[XRPYX_LB_XRPYX]]".data TOKEN_LINE_BREAK text
      else text
    let n2 := subAll matchSpacedXRPYXLB "XRPYXLB".data n1
    let n3 :=
      if containsSub "XRPYXLB".data n2 then
        pyReplace "XRPYXLB".data TOKEN_LINE_BREAK
          (subAll matchPipesXRPYXLBPipes TOKEN_LINE_BREAK n2)
      else n2
    let n4 := subAll matchAngleXRPYXLB TOKEN_LINE_BREAK n3
    let n5 := subAll matchAngleSpaced TOKEN_LINE_BREAK n4
    subAll matchPipesXLBPipes TOKEN_LINE_BREAK n5

/-- Index of the first case-insensitive occurrence of `tok` (nonempty). -/
def findCiTokenIdx (tok : Str) : Str → Option Nat
  | [] => none
  | c :: cs =>
    if ciPrefixOf tok (c :: cs) then some 0
    else (findCiTokenIdx tok cs).map (· + 1)

/-- Strip a trailing whitespace run. -/
def dropTrailingWs (s : Str) : Str := (s.reverse.dropWhile isPyWs).reverse

/-- Worker for `re.split(r'\s*TOK\s*', text, flags=re.IGNORECASE)` where
`TOK` is a whitespace-free literal: the leftmost match extends a maximal
whitespace run to the left and right of the first occurrence of the
token; pieces are the texts between consecutive matches. -/
def splitOnTokenWsAux (tok : Str) : Nat → Str → List Str
  | 0, s => [s]
  | Nat.succ f, s =>
    match findCiTokenIdx tok s with
    | none => [s]
    | some q =>
      let piece := dropTrailingWs (s.take q)
      let rest := (s.drop (q + tok.length)).dropWhile isPyWs
      piece :: splitOnTokenWsAux tok f rest

/-- `re.split(r'\s*TOK\s*', text, flags=re.IGNORECASE)`. -/
def splitOnTokenWs (tok s : Str) : List Str := splitOnTokenWsAux tok s.length s

/-- Python line terminators handled by `str.splitlines`. -/
def isLineTerm (c : Char) : Bool :=
  c = '\n' ∨ c = '\r' ∨ c = '\x0b' ∨ c = '\x0c' ∨
  c = '\x1c' ∨ c = '\x1d' ∨ c = '\x1e' ∨ c = '\x85' ∨
  c = '\u2028' ∨ c = '\u2029'

/-- Python `str.splitlines()`. -/
def pySplitlinesAux : Nat → Str → List Str
  | 0, _ => []
  | _, [] => []
  | Nat.succ f, s =>
    let line := s.takeWhile (fun c => ¬ isLineTerm c)
    let rest := s.dropWhile (fun c => ¬ isLineTerm c)
    match rest with
    | '\r' :: '\n' :: r => line :: pySplitlinesAux f r
    | _ :: r => line :: pySplitlinesAux f r
    | [] => [line]

/-- Python `str.splitlines()` with fuel `s.length`. -/
def pySplitlines (s : Str) : List Str := pySplitlinesAux s.length s

/-- A merger entry `(context_info, key, text)` as stored in
`TextMerger.current_block` and in `original_entries`. -/
abbrev MergeEntry := Str × Str × Str

/-- `TextMerger._split_lines`: returns `(lines, expected_count, mismatch)`. -/
def splitLines (mergedText : Str) (originalEntries : List MergeEntry) :
    List Str × Nat × Bool :=
  let expected := originalEntries.length
  let m := normalizeLineBreakTokens mergedText
  let lines :=
    if containsSub TOKEN_LINE_BREAK m then splitOnTokenWs TOKEN_LINE_BREAK m
    else if containsSub "[[XRPYX_LB_XRPYX]]".data m then
      splitOnTokenWs "[[XRPYX_LB_XRPYX]]".data m
    else pySplitlines m
  let lines := lines.map pyStrip
  let lines :=
    if lines.length > expected ∧ lines.getLast? = some [] then lines.take expected
    else lines
  (lines, expected, decide (lines.length ≠ expected))

/-- Mismatch padding: key paired with the split line when present,
falling back to the original text (`split_merged_result_checked`'s
second loop). -/
def padPairs : List MergeEntry → List Str → List (Str × Str)
  | [], _ => []
  | e :: es, [] => (e.2.1, e.2.2) :: padPairs es []
  | e :: es, l :: ls => (e.2.1, l) :: padPairs es ls

/-- `TextMerger.split_merged_result_checked`: returns `(pairs, mismatch)`. -/
def splitMergedResultChecked (mergedText : Str)
    (originalEntries : List MergeEntry) : List (Str × Str) × Bool :=
  let r := splitLines mergedText originalEntries
  let lines := r.1
  let expected := r.2.1
  if lines.length = expected then
    ((originalEntries.zip lines).map (fun p => (p.1.2.1, p.2)), false)
  else
    (padPairs originalEntries lines, true)

/-- The separator inserted at each join by `TextMerger.flush_block`:
`f"\n{TOKEN_LINE_BREAK}\n"`. -/
def mergeSep : Str := '\n' :: TOKEN_LINE_BREAK ++ ['\n']

/-- The merged text built by `TextMerger.flush_block` for two or more
entries: the texts joined by `mergeSep`. -/
def mergedJoin : List Str → Str
  | [] => []
  | [x] => x
  | x :: xs => x ++ mergeSep ++ mergedJoin xs

/-- A whitespace perturbation of the joined text: each join carries
arbitrary whitespace runs on both sides of the separator token instead of
the canonical single `'\n'`. -/
def mergedJoinPerturbed : List Str → List (Str × Str) → Str
  | [], _ => []
  | [x], _ => x
  | x :: xs, w :: ws => x ++ w.1 ++ TOKEN_LINE_BREAK ++ w.2 ++ mergedJoinPerturbed xs ws
  | x :: xs, [] => x ++ mergedJoinPerturbed xs []

/-!
## Pipeline retry model (`TranslationPipeline._translate_entries`)

From `src/core/translation_pipeline.py` lines 306-497: the accumulating
state consists of `results_map`, `retry_seen` and `retry_entries`; a
successfully translated merged batch is split with
`split_merged_result_checked` and either committed to `results_map` or,
on mismatch, queued entirely for unmerged retry via `_queue_retry`.
-/

/-- The mutable state of `_translate_entries` relevant to merged-batch
handling: `results_map` (an insertion-ordered dict keyed by
`(file, path)`), `retry_seen` and `retry_entries`. -/
structure PipeState where
  results : List ((Str × Str) × Str)
  retrySeen : List (Str × Str)
  retryEntries : List (Str × Str × Str × Str)
  deriving Repr

/-- Python dict assignment `d[k] = v` on the assoc-list model. -/
def dictSet : List ((Str × Str) × Str) → (Str × Str) → Str → List ((Str × Str) × Str)
  | [], k, v => [(k, v)]
  | p :: rest, k, v => if p.1 = k then (k, v) :: rest else p :: dictSet rest k v

/-- `_queue_retry(file_path, original_entries)`: every entry whose
`(file, path)` key is unseen is appended to the retry queue. -/
def queueRetry (file : Str) (origs : List MergeEntry) (st : PipeState) : PipeState :=
  origs.foldl
    (fun st e =>
      let key := (file, e.2.1)
      if st.retrySeen.contains key then st
      else
        { st with
          retrySeen := st.retrySeen ++ [key]
          retryEntries := st.retryEntries ++ [(file, e.2.1, e.2.2, e.1)] })
    st

/-- Handling of one successful merged translation result (the
`meta.get('is_merged')` branch with a valid merge map): split, and either
commit every split pair or queue the whole batch for retry. -/
def processMergedSuccess (file translated : Str) (origs : List MergeEntry)
    (st : PipeState) : PipeState :=
  let r := splitMergedResultChecked translated origs
  if r.2 then queueRetry file origs st
  else { st with results := r.1.foldl (fun m p => dictSet m (file, p.1) p.2) st.results }

/-- An unmerged translation request as built by the retry loop
(`retry_requests.append` with `is_merged: False`; without a glossary the
protected text is the original text). -/
structure TransRequest where
  text : Str
  file : Str
  key : Str
  isMerged : Bool
  deriving Repr

/-- The retry requests built from `retry_entries`. -/
def buildRetryRequests (l : List (Str × Str × Str × Str)) : List TransRequest :=
  l.map (fun e => ⟨e.2.2.1, e.1, e.2.1, false⟩)

/-!
## Decimal rendering

Python f-string interpolation of a non-negative integer.
-/

/-- The ASCII digit character for `d < 10`. -/
def digitChar (d : Nat) : Char := Char.ofNat (48 + d)

/-- Fuel-driven decimal rendering worker. -/
def natReprAux : Nat → Nat → Str → Str
  | 0, n, acc => digitChar (n % 10) :: acc
  | Nat.succ f, n, acc =>
    if n < 10 then digitChar n :: acc
    else natReprAux f (n / 10) (digitChar (n % 10) :: acc)

/-- Decimal rendering of a natural number (Python `f"{n}"`). -/
def natRepr (n : Nat) : Str := natReprAux n n []

/-!
## JS string tokenizer (`src/core/parsers/js_tokenizer.py`)
-/

/-- The single-quote character (written numerically to keep the source
free of quote-escape noise). -/
def sqCh : Char := Char.ofNat 39

/-- The backtick character. -/
def btCh : Char := Char.ofNat 96

/-- An extracted string literal `(start_pos, end_pos, string_value,
quote_char)`; `start` is the index of the opening quote and `stop` the
index one past the closing quote. -/
structure JSTok where
  start : Nat
  stop : Nat
  value : Str
  quote : Char
  deriving Repr, DecidableEq

/-- The escape map of `extract_strings` for `'` and `"` literals; unknown
escapes pass through as the escaped character. -/
def escMapChar (e : Char) : Char :=
  if e = 'n' then '\n'
  else if e = 't' then '\t'
  else if e = 'r' then '\r'
  else if e = '\\' then '\\'
  else if e = sqCh then sqCh
  else if e = '"' then '"'
  else if e = '0' then '\x00'
  else e

/-- Skip a template-literal `$\x7b...\x7d` expression: consume up to and
including the brace closing the given depth (or everything, if
unbalanced), returning the number of characters consumed and the rest. -/
def skipTemplExpr : Nat → Nat → Str → Nat × Str
  | 0, _, s => (0, s)
  | _, _, [] => (0, [])
  | Nat.succ f, depth, c :: cs =>
    let d := if c = '\x7b' then depth + 1 else if c = '\x7d' then depth - 1 else depth
    if d = 0 then (1, cs)
    else
      let r := skipTemplExpr f d cs
      (r.1 + 1, r.2)

/-- Result of scanning a string-literal body. -/
structure LitRes where
  consumed : Nat
  value : Str
  term : Bool
  rest : Str
  deriving Repr

/-- The inner literal-scanning loop of `extract_strings`, for the body
following an opening quote: handles escapes (with the template-literal
variant), terminating quotes and `$\x7b...\x7d` placeholders. -/
def exLit (quote : Char) : Nat → Str → LitRes
  | 0, s => ⟨0, [], false, s⟩
  | _, [] => ⟨0, [], false, []⟩
  | Nat.succ f, c :: cs =>
    if c = '\\' then
      match cs with
      | e :: cs' =>
        let r := exLit quote f cs'
        let v := if quote = btCh then e else escMapChar e
        ⟨r.consumed + 2, v :: r.value, r.term, r.rest⟩
      | [] => ⟨1, [], false, []⟩
    else if c = quote then ⟨1, [], true, cs⟩
    else if quote = btCh ∧ c = '$' ∧ cs.head? = some '\x7b' then
      let cs' := cs.drop 1
      let e := skipTemplExpr cs'.length 1 cs'
      let r := exLit quote f e.2
      ⟨2 + e.1 + r.consumed, "$\x7b...\x7d".data ++ r.value, r.term, r.rest⟩
    else
      let r := exLit quote f cs
      ⟨r.consumed + 1, c :: r.value, r.term, r.rest⟩

/-- Find the end of a `/* ... */` comment body: characters consumed up to
and including the closing marker, or `none` when unterminated. -/
def findCloseComment : Str → Option Nat
  | '*' :: '/' :: _ => some 2
  | _ :: cs => (findCloseComment cs).map (· + 1)
  | [] => none

/-- The main loop of `JSStringTokenizer.extract_strings`, scanning the
remainder `s` that starts at absolute position `pos`: skips `//` and
`/* */` comments, collects terminated string literals, and stops at an
unterminated literal or comment exactly as the source loop does. -/
def exStrAux : Nat → Nat → Str → List JSTok
  | 0, _, _ => []
  | _, _, [] => []
  | Nat.succ f, pos, c :: cs =>
    if c = '/' ∧ cs.head? = some '/' then
      let rest := cs.drop 1
      let k := (rest.takeWhile (fun x => x ≠ '\n')).length
      exStrAux f (pos + 2 + k) (rest.drop k)
    else if c = '/' ∧ cs.head? = some '*' then
      match findCloseComment (cs.drop 1) with
      | some n => exStrAux f (pos + 2 + n) ((cs.drop 1).drop n)
      | none => []
    else if c = '"' ∨ c = sqCh ∨ c = btCh then
      let r := exLit c cs.length cs
      if r.term then
        ⟨pos, pos + 1 + r.consumed, r.value, c⟩ :: exStrAux f (pos + 1 + r.consumed) r.rest
      else []
    else exStrAux f (pos + 1) cs

/-- `JSStringTokenizer.extract_strings`. -/
def extractStrings (js : Str) : List JSTok := exStrAux js.length 0 js

/-- `JSStringTokenizer._escape_for_js`. -/
def escapeForJs (value : Str) (quote : Char) : Str :=
  let r := pyReplace "\\".data "\\\\".data value
  let r :=
    if quote = '"' then pyReplace "\"".data "\\\"".data r
    else if quote = sqCh then pyReplace [sqCh] ['\\', sqCh] r
    else if quote = btCh then
      pyReplace "$\x7b".data "\\$\x7b".data (pyReplace [btCh] ['\\', btCh] r)
    else r
  let r := pyReplace "\n".data "\\n".data r
  let r := pyReplace "\r".data "\\r".data r
  pyReplace "\t".data "\\t".data r

/-- `JSStringTokenizer.replace_string_at`. -/
def replaceStringAt (js : Str) (start stop : Nat) (quote : Char) (newVal : Str) : Str :=
  js.take start ++ quote :: (escapeForJs newVal quote ++ quote :: js.drop stop)

/-- Python `float()` acceptance, modelled for the grammar
`[ws] [sign] (digits [. digits?] | . digits) [(e|E) [sign] digits] [ws]`
plus the `inf`/`infinity`/`nan` words; PEP-515 digit underscores are not
modelled (no evaluated input contains them). -/
def pyFloatParsable (s : Str) : Bool :=
  let t := dropTrailingWs (s.dropWhile isPyWs)
  let t := match t with
           | c :: cs => if c = '+' ∨ c = '-' then cs else t
           | [] => t
  let tl := pyLower t
  if tl = "inf".data ∨ tl = "infinity".data ∨ tl = "nan".data then true
  else
    let intPart := t.takeWhile isAsciiDigit
    let rest := t.dropWhile isAsciiDigit
    let expOk : Str → Bool := fun r =>
      match r with
      | c :: r' =>
        if c = 'e' ∨ c = 'E' then
          let r'' := match r' with
                     | d :: ds => if d = '+' ∨ d = '-' then ds else r'
                     | [] => r'
          ¬ r''.isEmpty ∧ r''.all isAsciiDigit
        else false
      | [] => true
    match rest with
    | '.' :: r' =>
      let fr := r'.takeWhile isAsciiDigit
      let r'' := r'.dropWhile isAsciiDigit
      if intPart = [] ∧ fr = [] then false else expOk r''
    | [] => ¬ intPart.isEmpty
    | _ => ¬ intPart.isEmpty ∧ expOk rest

/-- `JSStringTokenizer._is_technical_string`. -/
def isTechnicalStringTok (value : Str) : Bool :=
  let v := pyStrip value
  let vLower := pyLower v
  let managers := ["textmanager.", "datamanager.", "imagemanager.", "scenemanager.",
                   "soundmanager.", "audiomanager."].map String.data
  if managers.any (fun m => containsSub m vLower) then true
  else if (["true", "false", "null", "undefined", "none", "nan",
            "auto", "default", "on", "off"].map String.data).contains vLower then true
  else if pyFloatParsable (pyReplace ",".data [] v) then true
  else if (([".png", ".jpg", ".jpeg", ".gif", ".bmp", ".svg",
             ".ogg", ".wav", ".m4a", ".mp3", ".mid",
             ".webm", ".mp4", ".avi",
             ".js", ".json", ".css", ".txt",
             ".rpgmvp", ".rpgmvo", ".rpgmvm"].map String.data).any
            (fun e => pyEndsWith e vLower)) then true
  else if (v.contains '/' ∨ v.contains '\\') ∧ ¬ v.contains ' ' then true
  else if pyStartsWith "#".data v ∧ (v.length = 4 ∨ v.length = 5 ∨ v.length = 7 ∨ v.length = 9) then true
  else if pyStartsWith "rgb(".data vLower ∨ pyStartsWith "rgba(".data vLower then true
  else if v.contains '_' ∧ ¬ v.contains ' ' then true
  else if (pyStartsWith "$".data v ∨ pyStartsWith "!".data v) ∧ ¬ v.contains ' ' then true
  else if (pyStartsWith "EV".data v ∨ pyStartsWith "SW".data v ∨ pyStartsWith "VAR".data v) ∧
          v.any isAsciiDigit then true
  else false

/-- `JSStringTokenizer._is_in_comparison`: look back from the opening
quote over spaces and tabs for a `==`/`!=`/`===`/`!==` operator. -/
def isInComparison (js : Str) (start : Nat) : Bool :=
  let t := ((js.take start).reverse.dropWhile (fun c => c = ' ' ∨ c = '\t')).reverse
  pyEndsWith "===".data t ∨ pyEndsWith "!==".data t ∨
  pyEndsWith "==".data t ∨ pyEndsWith "!=".data t

/-- `JSStringTokenizer.extract_translatable_strings` at the default
arguments (`min_length = 2`, `require_non_ascii_or_space = True`). -/
def extractTranslatableStrings (js : Str) : List JSTok :=
  (extractStrings js).filter (fun tok =>
    ¬ (pyStrip tok.value).isEmpty ∧
    (pyStrip tok.value).length ≥ 2 ∧
    ¬ isTechnicalStringTok tok.value ∧
    ¬ isInComparison js tok.start ∧
    (tok.value.contains ' ' ∨ tok.value.any (fun c => c.toNat > 127) ∨
      tok.value.length ≥ 4))

/-!
## Raw JS file injection (`JsonParser._apply_to_js_source`)

From `src/core/parsers/json_parser.py` lines 1427-1440.
-/

/-- `JsonParser._apply_to_js_source`: re-extract the translatable
literals, then, from the highest start offset downwards, splice each
translated value (escaped for the literal's quote) over the span
`[start, end)` of the literal — spans that include the quote characters. -/
def applyToJsSource (content : Str) (translations : List (Str × Str)) : Str :=
  let strings := extractTranslatableStrings content
  let sorted := (strings.enum).insertionSort (fun a b => a.2.start ≥ b.2.start)
  sorted.foldl
    (fun result it =>
      let path := "JS_SRC_".data ++ natRepr it.1
      match translations.lookup path with
      | some t =>
        if t ≠ [] then
          result.take it.2.start ++ escapeForJs t it.2.quote ++ result.drop it.2.stop
        else result
      | none => result)
    content

/-- The claim's identity splice-back experiment: starting from the
source, replace every literal extracted by `extract_strings` with its own
extracted value via `replace_string_at`, from the highest start offset
downwards (right-to-left). -/
def spliceIdentity (js : Str) : Str :=
  (extractStrings js).reverse.foldl
    (fun acc tok => replaceStringAt acc tok.start tok.stop tok.quote tok.value) js

/-!
## Base safety filter (`src/core/parsers/base.py`, `is_safe_to_translate`)

The user-configured `blacklist_patterns` (compiled regexes, empty unless
the user supplies some) are modelled as a list of abstract predicates on
the trimmed text.  Python's `str.isdigit`/`isalpha`/`isupper`/`islower`/
`isascii` are modelled on the ASCII range; the branches using them run
only after the has-non-ascii early return, so the texts they see are
ASCII.
-/

/-- The character set of `text.strip('"\' \n\r\t')`. -/
def stripQuoteChars : List Char := ['"', Char.ofNat 39, ' ', '\n', '\r', '\t']

/-- Python `str.strip(chars)`. -/
def pyStripSet (chars : List Char) (s : Str) : Str :=
  ((s.dropWhile (fun c => chars.contains c)).reverse.dropWhile
    (fun c => chars.contains c)).reverse

/-- The ignored-extension set of `is_safe_to_translate`. -/
def safeIgnoredExts : List Str :=
  [".ogg", ".m4a", ".wav", ".mp3", ".mid", ".midi", ".wma",
   ".png", ".jpg", ".jpeg", ".bmp", ".gif", ".svg", ".tga", ".psd",
   ".webm", ".mp4", ".avi", ".mov", ".ogv", ".mkv",
   ".rpgmvp", ".rpgmvo", ".rpgmvm", ".rpgmvw",
   ".css", ".js", ".json", ".txt", ".map", ".bin", ".dll",
   ".rvdata2", ".rxdata", ".rvdata", ".rb", ".coffee"].map String.data

/-- The technical-keyword set of `is_safe_to_translate`. -/
def safeTechnicalKeywords : List Str :=
  ["true", "false", "null", "undefined", "nan", "none",
   "auto", "always", "never", "default",
   "top", "bottom", "left", "right", "center", "middle",
   "width", "height", "opacity", "scale", "blend",
   "x", "y", "z", "id", "index", "code"].map String.data

/-- The engine-reference text literals checked against the lowercased text
(`'Script:'` and `'Plugin:'` are kept capitalized as in the source, so
they can never match the lowercased text). -/
def safeEngineRefs : List Str :=
  ["v[", "n[", "i[", "::", "eval(", "Script:", "Plugin:", "note:", "meta:",
   "rgba(", "rgb("].map String.data

/-- The shared tail of `is_safe_to_translate` (pure numbers, hex colors,
`rgb(...)`, note tags, engine references). -/
def isSafeTail (trimmed lowerTrimmed : Str) (isDialogue : Bool) : Bool :=
  let cleanNum := pyReplace ",".data []
    (pyReplace " ".data [] (pyReplace "-".data [] (pyReplace ".".data [] trimmed)))
  if cleanNum ≠ [] ∧ cleanNum.all isAsciiDigit then false
  else if pyStartsWith "#".data trimmed ∧
      (trimmed.length = 4 ∨ trimmed.length = 5 ∨ trimmed.length = 7 ∨ trimmed.length = 9) ∧
      (pyLower (trimmed.drop 1)).all (fun c => isAsciiDigit c ∨ ('a' ≤ c ∧ c ≤ 'f')) then false
  else if (pyStartsWith "rgb(".data lowerTrimmed ∨ pyStartsWith "rgba(".data lowerTrimmed) ∧
      pyEndsWith ")".data lowerTrimmed then false
  else if pyStartsWith "<".data trimmed ∧ pyEndsWith ">".data trimmed then false
  else if safeEngineRefs.any (fun p => pyStartsWith p lowerTrimmed) ∧ ¬ isDialogue then false
  else true

/-- `BaseParser.is_safe_to_translate`. -/
def isSafeToTranslate (blacklist : List (Str → Bool)) (text : Str)
    (isDialogue : Bool) : Bool :=
  if text = [] then false
  else
    let trimmed := pyStripSet stripQuoteChars text
    if trimmed = [] then false
    else if blacklist.any (fun p => p trimmed) then false
    else
      let lowerTrimmed := pyLower trimmed
      if safeIgnoredExts.any (fun e => pyEndsWith e lowerTrimmed) then false
      else if safeTechnicalKeywords.contains lowerTrimmed then false
      else
        let hasNonAscii := trimmed.any (fun c => c.toNat > 127)
        if (trimmed.contains '/' ∨ (trimmed.contains '\\' ∧ ¬ hasNonAscii)) ∧
            ¬ trimmed.contains ' ' then false
        else if ¬ trimmed.contains ' ' then
          if pyStartsWith "$".data trimmed ∨ pyStartsWith "!".data trimmed then false
          else if hasNonAscii then true
          else if trimmed.contains '_' then false
          else if ¬ isDialogue ∧
              (trimmed.any isAsciiDigit ∧ trimmed.any isAsciiLetter) then false
          else if ¬ isDialogue ∧
              ((trimmed.drop 1).any isAsciiUpper ∧ trimmed.any isAsciiLower) then false
          else if trimmed.length < 2 ∧ trimmed.all (fun c => c.toNat ≤ 127) then false
          else isSafeTail trimmed lowerTrimmed isDialogue
        else isSafeTail trimmed lowerTrimmed isDialogue

/-!
## Ruby script tokenizer and Scripts extraction
(`src/core/parsers/ruby_parser.py`)
-/

/-- The inner string-literal loop of `RubyParser._tokenize_ruby_script`:
consume to the unescaped closing quote, keeping the raw escape
sequences verbatim in the content; `none` when unterminated. -/
def rubyLit (quote : Char) : Nat → Str → Option (Str × Str)
  | 0, _ => none
  | _, [] => none
  | Nat.succ f, c :: cs =>
    if c = '\\' then
      match cs with
      | e :: cs' => (rubyLit quote f cs').map (fun r => (c :: e :: r.1, r.2))
      | [] => none
    else if c = quote then some ([], cs)
    else (rubyLit quote f cs).map (fun r => (c :: r.1, r.2))

/-- The main loop of `RubyParser._tokenize_ruby_script`: `#` comments to
end of line, `'` and `"` string literals with backslash escape skipping;
emits `(start, end, content, quote)` with the raw content slice. -/
def rubyScanAux : Nat → Nat → Str → List (Nat × Nat × Str × Char)
  | 0, _, _ => []
  | _, _, [] => []
  | Nat.succ f, pos, c :: cs =>
    if c = '#' then
      let k := (cs.takeWhile (fun x => x ≠ '\n')).length
      rubyScanAux f (pos + 1 + k + 1) (cs.drop (k + 1))
    else if c = sqCh ∨ c = '"' then
      match rubyLit c cs.length cs with
      | some r =>
        (pos, pos + 1 + (r.1.length + 1), r.1, c) ::
          rubyScanAux f (pos + 1 + (r.1.length + 1)) r.2
      | none => []
    else rubyScanAux f (pos + 1) cs

/-- `RubyParser._tokenize_ruby_script`. -/
def tokenizeRubyScript (code : Str) : List (Nat × Nat × Str × Char) :=
  rubyScanAux code.length 0 code

/-- The file extensions skipped by `_is_valid_script_string`. -/
def rubyScriptExts : List Str :=
  [".png", ".jpg", ".jpeg", ".bmp", ".ogg", ".wav", ".mp3", ".rvdata2"].map String.data

/-- `RubyParser._is_valid_script_string` (with the parser's default empty
blacklist). -/
def isValidScriptString (text : Str) : Bool :=
  if ¬ isSafeToTranslate [] text true then false
  else if text = [] ∨ text.length < 2 then false
  else if text ≠ [] ∧ text.all (fun c => isAsciiLetter c ∨ isAsciiDigit c ∨ c = '_') then false
  else if rubyScriptExts.any (fun e => pyEndsWith e (pyLower text)) then false
  else if pyStartsWith ":".data text then false
  else if ¬ (text.contains ' ' ∨ text.any (fun c => c.toNat > 127)) then false
  else true

/-- The loop body of `RubyParser._extract_from_code`: enumerate the
tokens, skip texts already seen, and emit
`(prefix.string_<idx>, text, "script")` for valid new texts, adding them
to the seen set. -/
def extractFromCodeAux (pathPre : Str) :
    Nat → List (Nat × Nat × Str × Char) → List Str → List (Str × Str × Str)
  | _, [], _ => []
  | idx, t :: ts, seen =>
    let text := t.2.2.1
    if seen.contains text then extractFromCodeAux pathPre (idx + 1) ts seen
    else if isValidScriptString text then
      (pathPre ++ ".string_".data ++ natRepr idx, text, "script".data) ::
        extractFromCodeAux pathPre (idx + 1) ts (seen ++ [text])
    else extractFromCodeAux pathPre (idx + 1) ts seen

/-- `RubyParser._extract_from_code` (the emitted triples, in order). -/
def extractFromCode (code pathPre : Str) : List (Str × Str × Str) :=
  extractFromCodeAux pathPre 0 (tokenizeRubyScript code) []

/-!
## Placeholder protection (`src/utils/placeholder.py`)

`PROTECT_RE` is an `re.IGNORECASE` alternation of fifteen concrete
patterns tried in order at each position (Python alternation semantics:
first branch that matches wins; on failure the scan advances one
character).  Each branch below is a deterministic consumer implementing
that branch's greedy/backtracking behaviour, returning the rest of the
input after the match.  Python's `\d`/`\s`/`\w` are modelled on the
ASCII range.
-/

/-- Consume one character satisfying a predicate. -/
def eatOneIf (p : Char → Bool) : Str → Option Str
  | [] => none
  | c :: r => if p c then some r else none

/-- Consume a maximal nonempty backslash run (`\\+`; maximal munch is
exact since no following pattern position accepts a backslash). -/
def eatBackslashes1 (s : Str) : Option Str :=
  if (s.takeWhile (fun c => c = '\\')) ≠ [] then
    some (s.dropWhile (fun c => c = '\\'))
  else none

/-- Consume a maximal nonempty run of a class (`[...]+`). -/
def eatClassPlus (p : Char → Bool) (s : Str) : Option Str :=
  if (s.takeWhile p) ≠ [] then some (s.dropWhile p) else none

/-- The `[Ss]?` of branch 1, which must be followed by `[`: the optional
letter is taken exactly when the following character is `[`. -/
def pb1OptS : Str → Str
  | x :: y :: r => if (x = 'S' ∨ x = 's') ∧ y = '[' then y :: r else x :: y :: r
  | s => s

/-- Branch 1: `\\+[VvCcNnPpGgIi][Ss]?\[[\d\s,]*\]`. -/
def pb1 (s : Str) : Option Str := do
  let s ← eatBackslashes1 s
  let s ← eatOneIf (fun c =>
    c = 'V' ∨ c = 'v' ∨ c = 'C' ∨ c = 'c' ∨ c = 'N' ∨ c = 'n' ∨
    c = 'P' ∨ c = 'p' ∨ c = 'G' ∨ c = 'g' ∨ c = 'I' ∨ c = 'i') s
  let s ← eatCh '[' (pb1OptS s)
  eatCh ']' (s.dropWhile (fun c => isAsciiDigit c ∨ isPyWs c ∨ c = ','))

/-- Branch 2: `\\+[Ff][SsBbIi](?:\[[\d\s,\-]*\])?` (the bracket group is
taken only when it completes; otherwise the regex backtracks to the empty
option). -/
def pb2 (s : Str) : Option Str := do
  let s ← eatBackslashes1 s
  let s ← eatOneIf (fun c => c = 'F' ∨ c = 'f') s
  let s ← eatOneIf (fun c =>
    c = 'S' ∨ c = 's' ∨ c = 'B' ∨ c = 'b' ∨ c = 'I' ∨ c = 'i') s
  match eatCh '[' s with
  | some r =>
    match eatCh ']' (r.dropWhile (fun c => isAsciiDigit c ∨ isPyWs c ∨ c = ',' ∨ c = '-')) with
    | some r3 => some r3
    | none => some s
  | none => some s

/-- Branch 3: `\\+[Pp][XxYy]\[[\d\s,\.\-]*\]`. -/
def pb3 (s : Str) : Option Str := do
  let s ← eatBackslashes1 s
  let s ← eatOneIf (fun c => c = 'P' ∨ c = 'p') s
  let s ← eatOneIf (fun c => c = 'X' ∨ c = 'x' ∨ c = 'Y' ∨ c = 'y') s
  let s ← eatCh '[' s
  eatCh ']' (s.dropWhile (fun c => isAsciiDigit c ∨ isPyWs c ∨ c = ',' ∨ c = '.' ∨ c = '-'))

/-- Branch 4: `\\+(?:MSGCore|pop|WordWrap)\[[^\]]*\]` (case-insensitive;
the three literals start with distinct letters, so at most one applies). -/
def pb4 (s : Str) : Option Str := do
  let s ← eatBackslashes1 s
  let s ← (eatLitCi "MSGCore".data s).orElse
    (fun _ => (eatLitCi "pop".data s).orElse (fun _ => eatLitCi "WordWrap".data s))
  let s ← eatCh '[' s
  eatCh ']' (s.dropWhile (fun c => c ≠ ']'))

/-- Branch 5: `\\+[\.\!\|\^\$\{\}\>\<]`. -/
def pb5 (s : Str) : Option Str := do
  let s ← eatBackslashes1 s
  eatOneIf (fun c =>
    c = '.' ∨ c = '!' ∨ c = '|' ∨ c = '^' ∨ c = '$' ∨
    c = '\x7b' ∨ c = '\x7d' ∨ c = '>' ∨ c = '<') s

/-- Branch 6: `#\{[^\}]+\}`. -/
def pb6 (s : Str) : Option Str := do
  let s ← eatCh '#' s
  let s ← eatCh '\x7b' s
  let s ← eatClassPlus (fun c => c ≠ '\x7d') s
  eatCh '\x7d' s

/-- Branch 7: `\$\{[^\}]+\}`. -/
def pb7 (s : Str) : Option Str := do
  let s ← eatCh '$' s
  let s ← eatCh '\x7b' s
  let s ← eatClassPlus (fun c => c ≠ '\x7d') s
  eatCh '\x7d' s

/-- Regex word character (`\w`), modelled on the ASCII range. -/
def isWordChar (c : Char) : Bool := isAsciiLetter c ∨ isAsciiDigit c ∨ c = '_'

/-- Greedy-with-backtracking tail of branch 8 (`\s*[^\n]+` after the
colon, where `\s*` gives back trailing non-newline whitespace so that
`[^\n]+` can still match): try the whitespace-run lengths from maximal
down to zero. -/
def metaTailGo : Nat → Str → Option Str
  | 0, s2 =>
    let r := s2.takeWhile (fun c => c ≠ '\n')
    if r ≠ [] then some (s2.drop r.length) else none
  | Nat.succ k, s2 =>
    let t := s2.drop (Nat.succ k)
    let r := t.takeWhile (fun c => c ≠ '\n')
    if r ≠ [] then some (t.drop r.length) else metaTailGo k s2

/-- One keyword attempt of branch 8: keyword (case-insensitive), colon,
then the `\s*[^\n]+` tail. -/
def pb8Kw (kw : Str) (s : Str) : Option Str := do
  let s1 ← eatLitCi kw s
  let s2 ← eatCh ':' s1
  metaTailGo (s2.takeWhile isPyWs).length s2

/-- Branch 8: `\b(?:eval|script|evalText|note|meta):\s*[^\n]+`
(case-insensitive; keywords tried in alternation order, each with the
full continuation). -/
def pb8 (prev : Option Char) (s : Str) : Option Str :=
  let boundary := match prev with
                  | none => true
                  | some p => ¬ isWordChar p
  if boundary then
    (pb8Kw "eval".data s).orElse (fun _ =>
      (pb8Kw "script".data s).orElse (fun _ =>
        (pb8Kw "evalText".data s).orElse (fun _ =>
          (pb8Kw "note".data s).orElse (fun _ => pb8Kw "meta".data s))))
  else none

/-- Branch 9: `<[^>]+>`. -/
def pb9 (s : Str) : Option Str := do
  let s ← eatCh '<' s
  let s ← eatClassPlus (fun c => c ≠ '>') s
  eatCh '>' s

/-- Branch 10: `\[\[[^\]]+\]\]`. -/
def pb10 (s : Str) : Option Str := do
  let s ← eatLit "[[".data s
  let s ← eatClassPlus (fun c => c ≠ ']') s
  eatLit "]]".data s

/-- Branch 11: `\{\{[^\}]+\}\}`. -/
def pb11 (s : Str) : Option Str := do
  let s ← eatLit "\x7b\x7b".data s
  let s ← eatClassPlus (fun c => c ≠ '\x7d') s
  eatLit "\x7d\x7d".data s

/-- Branch 12: `\\{2,}`. -/
def pb12 (s : Str) : Option Str :=
  if (s.takeWhile (fun c => c = '\\')).length ≥ 2 then
    some (s.dropWhile (fun c => c = '\\'))
  else none

/-- Branch 13: `\\+\[`. -/
def pb13 (s : Str) : Option Str := do
  let s ← eatBackslashes1 s
  eatCh '[' s

/-- Branch 14: `\\+\]`. -/
def pb14 (s : Str) : Option Str := do
  let s ← eatBackslashes1 s
  eatCh ']' s

/-- The greedy class run of branch 15 gives back a trailing `XRPYX`
(case-insensitively): try split points from largest to smallest. -/
def pb15Go (s1 : Str) : Nat → Option Str
  | 0 => none
  | Nat.succ r' =>
    if ciPrefixOf "XRPYX".data (s1.drop (Nat.succ r')) then
      some ((s1.drop (Nat.succ r')).drop 5)
    else pb15Go s1 r'

/-- Branch 15: `XRPYX[A-Z0-9_]+XRPYX` (case-insensitive). -/
def pb15 (s : Str) : Option Str := do
  let s1 ← eatLitCi "XRPYX".data s
  let run := s1.takeWhile (fun c => isAsciiLetter c ∨ isAsciiDigit c ∨ c = '_')
  if run.length ≥ 6 then pb15Go s1 (run.length - 5) else none

/-- One alternation attempt of `PROTECT_RE` at the current position
(`prev` is the character before the position, for the `\b` of branch 8):
returns `(matched_text, rest)`. -/
def matchProtect (prev : Option Char) (s : Str) : Option (Str × Str) :=
  let rest :=
    (pb1 s).orElse (fun _ => (pb2 s).orElse (fun _ => (pb3 s).orElse (fun _ =>
      (pb4 s).orElse (fun _ => (pb5 s).orElse (fun _ => (pb6 s).orElse (fun _ =>
        (pb7 s).orElse (fun _ => (pb8 prev s).orElse (fun _ => (pb9 s).orElse (fun _ =>
          (pb10 s).orElse (fun _ => (pb11 s).orElse (fun _ => (pb12 s).orElse (fun _ =>
            (pb13 s).orElse (fun _ => (pb14 s).orElse (fun _ => pb15 s))))))))))))))
  match rest with
  | some r => some (s.take (s.length - r.length), r)
  | none => none

/-- One segment of the `PROTECT_RE.sub(replacer, text)` scan: an
unmatched character, a masked fragment (with the placeholder id assigned
by `replacer`), or a matched fragment that already contains both Unicode
brackets and is returned unchanged by `replacer`. -/
inductive PSeg where
  | plain (c : Char)
  | keyed (kind : Str) (id : Nat) (tok : Str)
  | skipped (tok : Str)
deriving Repr, DecidableEq

/-- The prefix classification inside `replacer`. -/
def classifyKind (tok : Str) : Str :=
  if pyStartsWith "\\".data tok then "CMD".data
  else if pyStartsWith "<".data tok then "TAG".data
  else if pyStartsWith "#".data tok ∨ pyStartsWith "$".data tok then "SCPT".data
  else if containsSub "[[".data tok ∨ containsSub "\x7b\x7b".data tok then "EXT".data
  else "VAR".data

/-- The placeholder key `f"⟦RLPH_{prefix}{ph_id}⟧"`. -/
def mkKey (kind : Str) (id : Nat) : Str :=
  "⟦RLPH_".data ++ kind ++ natRepr id ++ "⟧".data

/-- The `PROTECT_RE.sub` scan: `n` is `len(placeholders)` so far and
`prev` the character before the current position (for the `\b` of
branch 8). -/
def protectScan : Nat → Option Char → Str → Nat → List PSeg
  | 0, _, s, _ => s.map PSeg.plain
  | _, _, [], _ => []
  | Nat.succ f, prev, c :: cs, n =>
    match matchProtect prev (c :: cs) with
    | some (tok, rest) =>
      if containsSub "⟦".data tok ∧ containsSub "⟧".data tok then
        PSeg.skipped tok :: protectScan f tok.getLast? rest n
      else
        PSeg.keyed (classifyKind tok) n tok :: protectScan f tok.getLast? rest (n + 1)
    | none => PSeg.plain c :: protectScan f (some c) cs n

/-- The protected text: plain characters stay, masked fragments are
replaced by their keys, skipped fragments stay. -/
def renderProtected : List PSeg → Str
  | [] => []
  | PSeg.plain c :: rest => c :: renderProtected rest
  | PSeg.keyed kind i _ :: rest => mkKey kind i ++ renderProtected rest
  | PSeg.skipped tok :: rest => tok ++ renderProtected rest

/-- Re-rendering the segments with their original fragments gives back
the scanned text. -/
def renderOriginal : List PSeg → Str
  | [] => []
  | PSeg.plain c :: rest => c :: renderOriginal rest
  | PSeg.keyed _ _ tok :: rest => tok ++ renderOriginal rest
  | PSeg.skipped tok :: rest => tok ++ renderOriginal rest

/-- The `placeholders` mapping built by `replacer`, in insertion order. -/
def collectMap : List PSeg → List (Str × Str)
  | [] => []
  | PSeg.keyed kind i tok :: rest => (mkKey kind i, tok) :: collectMap rest
  | _ :: rest => collectMap rest

/-- `protect_rpgm_syntax` (`placeholder.py` lines 62–91). -/
def protect_rpgm_syntax (text : Str) : Str × List (Str × Str) :=
  if text = [] then (text, [])
  else
    let segs := protectScan text.length none text 0
    (renderProtected segs, collectMap segs)

/-!
### `restore_rpgm_syntax` (`placeholder.py` lines 93–156)
-/

/-- `_CYRILLIC_TO_LATIN` as a character function (characters are written
by code point to keep Cyrillic letters distinguishable from their Latin
homoglyphs). -/
def cyrToLatin (c : Char) : Char :=
  if c.toNat = 0x410 then 'A' else if c.toNat = 0x412 then 'V'
  else if c.toNat = 0x413 then 'G' else if c.toNat = 0x414 then 'D'
  else if c.toNat = 0x415 then 'E' else if c.toNat = 0x418 then 'I'
  else if c.toNat = 0x41A then 'K' else if c.toNat = 0x41B then 'L'
  else if c.toNat = 0x41C then 'M' else if c.toNat = 0x41D then 'N'
  else if c.toNat = 0x41E then 'O' else if c.toNat = 0x41F then 'P'
  else if c.toNat = 0x420 then 'R' else if c.toNat = 0x421 then 'S'
  else if c.toNat = 0x422 then 'T' else if c.toNat = 0x423 then 'U'
  else if c.toNat = 0x425 then 'X' else c

/-- `_GREEK_TO_LATIN` as a character function. -/
def greekToLatin (c : Char) : Char :=
  if c.toNat = 0x391 then 'A' else if c.toNat = 0x392 then 'B'
  else if c.toNat = 0x393 then 'G' else if c.toNat = 0x394 then 'D'
  else if c.toNat = 0x395 then 'E' else if c.toNat = 0x399 then 'I'
  else if c.toNat = 0x39A then 'K' else if c.toNat = 0x39C then 'M'
  else if c.toNat = 0x39D then 'N' else if c.toNat = 0x39F then 'O'
  else if c.toNat = 0x3A1 then 'R' else if c.toNat = 0x3A3 then 'S'
  else if c.toNat = 0x3A4 then 'T' else if c.toNat = 0x3A7 then 'X'
  else c

/-- The class `[A-ZА-ЯΑ-Ω]` of `_TRANSLITERATED_TOKEN_RE` (no
IGNORECASE on that regex). -/
def isUpTok (c : Char) : Bool :=
  isAsciiUpper c ∨ (0x410 ≤ c.toNat ∧ c.toNat ≤ 0x42F) ∨
  (0x391 ≤ c.toNat ∧ c.toNat ≤ 0x3A9)

/-- One attempt of `_TRANSLITERATED_TOKEN_RE` at the current position
(three alternatives in order); returns `(matched, rest)`.  Alternative 2
(`[..][..0-9_]*\d+`) succeeds exactly when the maximal class run ends in
a digit (the greedy star gives the trailing digits back to `\d+`
without changing the extent). -/
def matchTranslit : Str → Option (Str × Str)
  | [] => none
  | u :: rest =>
    if isUpTok u then
      let isUD := fun c => isUpTok c ∨ isAsciiDigit c ∨ c = '_'
      let r := rest.takeWhile isUD
      let after := rest.drop r.length
      let w := after.takeWhile isPyWs
      let d1 := (after.drop w.length).takeWhile isAsciiDigit
      if w ≠ [] ∧ d1 ≠ [] then
        some (u :: (r ++ w ++ d1), (after.drop w.length).drop d1.length)
      else if (match r.getLast? with | some c => isAsciiDigit c | none => false) then
        some (u :: r, after)
      else
        let r2 := rest.takeWhile (fun c => isUpTok c ∨ isAsciiDigit c)
        match rest.drop r2.length with
        | '_' :: tl =>
          let r3 := tl.takeWhile isUD
          if r3 ≠ [] then some (u :: (r2 ++ '_' :: r3), tl.drop r3.length)
          else none
        | _ => none
    else none

/-- Phase 0 substitution: each matched token is passed through the
Cyrillic table and then the Greek table. -/
def translitSubAux : Nat → Str → Str
  | 0, s => s
  | _, [] => []
  | Nat.succ f, c :: cs =>
    match matchTranslit (c :: cs) with
    | some (tok, rest) =>
      tok.map (fun x => greekToLatin (cyrToLatin x)) ++ translitSubAux f rest
    | none => c :: translitSubAux f cs

/-- One attempt of `flexible_token_pattern`
(`⟦\s*R\s*L\s*P\s*H\s*_\s*([A-Z]+\d+)\s*⟧`, IGNORECASE) at the
current position; returns `(matched, group1, rest)`. -/
def parseFlex (s0 : Str) : Option (Str × Str × Str) := do
  let s ← eatCh '⟦' s0
  let s ← eatCi 'R' (eatWsStar s)
  let s ← eatCi 'L' (eatWsStar s)
  let s ← eatCi 'P' (eatWsStar s)
  let s ← eatCi 'H' (eatWsStar s)
  let s ← eatCh '_' (eatWsStar s)
  let s := eatWsStar s
  let letters := s.takeWhile isAsciiLetter
  let s1 := s.drop letters.length
  let digits := s1.takeWhile isAsciiDigit
  let s2 := s1.drop digits.length
  if letters ≠ [] ∧ digits ≠ [] then
    let rest ← eatCh '⟧' (eatWsStar s2)
    pure (s0.take (s0.length - rest.length), letters ++ digits, rest)
  else none

/-- Phase 1: `flexible_token_pattern.sub(token_replacer, result)` — on a
match, upper-case the core, rebuild the canonical key, and substitute the
stored fragment when the key is known (otherwise keep the matched text). -/
def phase1Sub (m : List (Str × Str)) : Nat → Str → Str
  | 0, s => s
  | _, [] => []
  | Nat.succ f, c :: cs =>
    match parseFlex (c :: cs) with
    | some (matched, core, rest) =>
      (match m.lookup ("⟦RLPH_".data ++ pyUpper core ++ "⟧".data) with
       | some orig => orig
       | none => matched) ++ phase1Sub m f rest
    | none => c :: phase1Sub m f cs

/-- The spaced core of the fuzzy healing pattern: the core's characters
joined by `\s*`. -/
def eatCoreSpaced : Str → Str → Option Str
  | [], s => some s
  | [c], s => eatCi c s
  | c :: c2 :: rest, s => do
    let s ← eatCi c s
    eatCoreSpaced (c2 :: rest) (eatWsStar s)

/-- One attempt of the fuzzy pattern
`(?:⟦)?\s*R\s*L\s*P\s*H\s*_\s*{core_spaced}\s*(?:⟧)?`
(IGNORECASE); both optional brackets are taken when present. -/
def matchFuzzy (core : Str) (s : Str) : Option Str := do
  let s := match eatCh '⟦' s with | some r => r | none => s
  let s ← eatCi 'R' (eatWsStar s)
  let s ← eatCi 'L' (eatWsStar s)
  let s ← eatCi 'P' (eatWsStar s)
  let s ← eatCi 'H' (eatWsStar s)
  let s ← eatCh '_' (eatWsStar s)
  let s ← eatCoreSpaced core (eatWsStar s)
  let s := eatWsStar s
  pure (match eatCh '⟧' s with | some r => r | none => s)

/-- `re.search` with the fuzzy pattern: a match at some position. -/
def fuzzySearchAux (core : Str) : Nat → Str → Bool
  | 0, _ => false
  | _, [] => false
  | Nat.succ f, c :: cs =>
    (matchFuzzy core (c :: cs)).isSome || fuzzySearchAux core f cs

/-- Phase 2 of `restore_rpgm_syntax` (surgical healing): when both `R`
and `L` survive in the upper-cased text, fuzzy-substitute every
placeholder whose fragment is no longer a substring. -/
def phase2Heal (m : List (Str × Str)) (result : Str) : Str :=
  if containsSub ['R'] (pyUpper result) ∧ containsSub ['L'] (pyUpper result) then
    let missing := m.filter (fun p => ¬ containsSub p.2 result)
    if missing ≠ [] then
      missing.foldl (fun res p =>
        let core := pyReplace "⟧".data [] (pyReplace "⟦RLPH_".data [] p.1)
        if fuzzySearchAux core res.length res then
          subAllAux (matchFuzzy core) p.2 res.length res
        else res) result
    else result
  else result

/-- `_replace_exact_placeholders`: keys sorted by length descending
(stable), each replaced where still present. -/
def replaceExact (m : List (Str × Str)) (text : Str) : Str :=
  let ks := (m.map Prod.fst).insertionSort (fun a b => b.length ≤ a.length)
  ks.foldl (fun t k =>
    if containsSub k t then pyReplace k ((m.lookup k).getD []) t else t) text

/-- The continuation of the phase-3 pattern
`r'\\\s+([VvCcNnPpGgIiSs])\s*\['` after the backslash. -/
def polishMatch1 (cs : Str) : Option (Char × Str) :=
  let w := cs.takeWhile isPyWs
  if w = [] then none else
  match cs.drop w.length with
  | [] => none
  | L :: r =>
    if L = 'V' ∨ L = 'v' ∨ L = 'C' ∨ L = 'c' ∨ L = 'N' ∨ L = 'n' ∨
       L = 'P' ∨ L = 'p' ∨ L = 'G' ∨ L = 'g' ∨ L = 'I' ∨ L = 'i' ∨
       L = 'S' ∨ L = 's' then
      match eatCh '[' (eatWsStar r) with
      | some rest => some (L, rest)
      | none => none
    else none

/-- Phase 3, first sub: collapse `\<ws>L<ws>[` to `\L[`. -/
def polishSub1 : Nat → Str → Str
  | 0, s => s
  | _, [] => []
  | Nat.succ f, c :: cs =>
    if c = '\\' then
      match polishMatch1 cs with
      | some (L, rest) => '\\' :: L :: '[' :: polishSub1 f rest
      | none => c :: polishSub1 f cs
    else c :: polishSub1 f cs

/-- The continuation of the phase-3 pattern `r'<\s*([^>]+)\s*>'` after
the `<`: the greedy group keeps trailing whitespace; when only
whitespace separates `<` from `>`, the backtracked `\s*` leaves its last
whitespace character to the group. -/
def polishMatch2 (cs : Str) : Option (Str × Str) :=
  let w := cs.takeWhile isPyWs
  match cs.drop w.length with
  | [] => none
  | x :: r =>
    if x = '>' then
      match w.getLast? with
      | some lw => some ([lw], r)
      | none => none
    else
      let g := (x :: r).takeWhile (fun c => c ≠ '>')
      match eatCh '>' ((x :: r).drop g.length) with
      | some rest => some (g, rest)
      | none => none

/-- Phase 3, second sub: `<\s*([^>]+)\s*>` → `<\1>`. -/
def polishSub2 : Nat → Str → Str
  | 0, s => s
  | _, [] => []
  | Nat.succ f, c :: cs =>
    if c = '<' then
      match polishMatch2 cs with
      | some (g, rest) => '<' :: (g ++ '>' :: polishSub2 f rest)
      | none => c :: polishSub2 f cs
    else c :: polishSub2 f cs

/-- Phase 3 of `restore_rpgm_syntax`: the two polish regexes followed by
the two literal replaces. -/
def polish3 (s : Str) : Str :=
  let r1 := polishSub1 s.length s
  let r2 := polishSub2 r1.length r1
  pyReplace "$ \x7b".data "$\x7b".data (pyReplace "# \x7b".data "#\x7b".data r2)

/-- `restore_rpgm_syntax` (`placeholder.py` lines 93–156): the phase-0
guard characters are Cyrillic A (U+0410), Greek Alpha (U+0391) and
Cyrillic Ve (U+0412), as in the source. -/
def restore_rpgm_syntax (translated : Str) (placeholders : List (Str × Str)) : Str :=
  if translated = [] ∨ placeholders = [] then translated
  else
    let r0 :=
      if containsSub [Char.ofNat 0x410] (pyUpper translated) ∨
         containsSub [Char.ofNat 0x391] (pyUpper translated) ∨
         containsSub [Char.ofNat 0x412] (pyUpper translated) then
        translitSubAux translated.length translated
      else translated
    let r1 := phase1Sub placeholders r0.length r0
    let r2 := phase2Heal placeholders r1
    let r3 := replaceExact placeholders r2
    polish3 r3

/-!
## Restoration validation (`src/utils/placeholder.py`, `validate_restoration`)
-/

/-- The whitespace-insensitive comparison form used by
`validate_restoration`: `s.replace(" ", "").lower()`. -/
def cleanForCompare (s : Str) : Str := pyLower (pyReplace " ".data [] s)

/-- The decorative-code test of `validate_restoration`:
`tok.upper().startswith('\C[')` or `...startswith('\I[')`. -/
def isDecorative (tok : Str) : Bool :=
  pyStartsWith "\\C[".data (pyUpper tok) ∨ pyStartsWith "\\I[".data (pyUpper tok)

/-- `validate_restoration(original, restored, placeholders)`: returns
`(ok, missing)` where the decorative-code and line-break exemptions apply
only when the placeholder map contains the merged-block line-break token
(the `original` argument is unused by the source logic, as in the code). -/
def validateRestoration (original restored : Str)
    (placeholders : List (Str × Str)) : Bool × List Str :=
  let cleanRestored := cleanForCompare restored
  let missing :=
    if (placeholders.map Prod.snd).contains TOKEN_LINE_BREAK then
      placeholders.foldr
        (fun p acc =>
          if p.2 = TOKEN_LINE_BREAK then acc
          else if isDecorative p.2 then acc
          else if containsSub (cleanForCompare p.2) cleanRestored then acc
          else p.2 :: acc) []
    else
      placeholders.foldr
        (fun p acc =>
          if containsSub (cleanForCompare p.2) cleanRestored then acc
          else p.2 :: acc) []
  (missing.isEmpty, missing)


/-- Decimal value of a digit string (for the injectivity of `natRepr`). -/
def digitsVal (s : Str) : Nat := s.foldl (fun a c => a * 10 + (c.toNat - 48)) 0

/-!
## Theorems
-/

/-! ### Merger round-trip lemmas -/


theorem ciPrefixOf_append_self : ∀ (p r : Str), ciPrefixOf p (p ++ r) = true
  | [], _ => rfl
  | c :: ps, r => by simp [ciPrefixOf, ciEq, ciPrefixOf_append_self ps r]

theorem isPrefixOf_append_self (p r : Str) : p.isPrefixOf (p ++ r) = true :=
  List.isPrefixOf_iff_prefix.mpr (List.prefix_append p r)

theorem containsSub_append_self : ∀ (a p b : Str), p ≠ [] →
    containsSub p (a ++ (p ++ b)) = true
  | [], p, b, hp => by
    cases p with
    | nil => exact absurd rfl hp
    | cons c ps =>
      show containsSub (c :: ps) ((c :: ps) ++ b) = true
      rw [List.cons_append]
      simp [containsSub, isPrefixOf_append_self]
  | c :: a, p, b, hp => by
    simp [containsSub, containsSub_append_self a p b hp]

theorem tok_eq : TOKEN_LINE_BREAK = '|' :: "||XLB|||".data := rfl

theorem ciEq_pipe_false (c : Char) (hc : pyLowerChar c ≠ '|') : ciEq '|' c = false := by
  unfold ciEq
  rw [show pyLowerChar '|' = '|' from rfl]
  exact decide_eq_false (fun h => hc h.symm)

theorem ciPrefixOf_tok_false (c : Char) (cs : Str) (hc : pyLowerChar c ≠ '|') :
    ciPrefixOf TOKEN_LINE_BREAK (c :: cs) = false := by
  rw [tok_eq]
  simp [ciPrefixOf, ciEq_pipe_false c hc]

theorem findCi_cons (t : Str) (c : Char) (cs : Str) :
    findCiTokenIdx t (c :: cs) =
      if ciPrefixOf t (c :: cs) then some 0 else (findCiTokenIdx t cs).map (· + 1) := rfl

theorem findCi_none_of_pipeFree : ∀ (s : Str), (∀ c ∈ s, pyLowerChar c ≠ '|') →
    findCiTokenIdx TOKEN_LINE_BREAK s = none
  | [], _ => rfl
  | c :: cs, h => by
    rw [findCi_cons, ciPrefixOf_tok_false c cs (h c (List.mem_cons_self c cs)),
      findCi_none_of_pipeFree cs (fun x hx => h x (List.mem_cons_of_mem c hx))]
    rfl

theorem isPyWs_lower_ne_pipe (c : Char) (h : isPyWs c = true) : pyLowerChar c ≠ '|' := by
  simp [isPyWs] at h
  rcases h with h | h | h | h | h | h <;> subst h <;> decide

theorem findCi_ws_tok : ∀ (w r : Str), (∀ c ∈ w, isPyWs c = true) →
    findCiTokenIdx TOKEN_LINE_BREAK (w ++ (TOKEN_LINE_BREAK ++ r)) = some w.length
  | [], r, _ => by
    rw [List.nil_append]
    conv_lhs => rw [tok_eq, List.cons_append]
    rw [findCi_cons]
    rw [← List.cons_append, ← tok_eq, ciPrefixOf_append_self]
    rfl
  | c :: w, r, h => by
    rw [List.cons_append, findCi_cons,
      ciPrefixOf_tok_false _ _ (isPyWs_lower_ne_pipe c (h c (List.mem_cons_self c w))),
      findCi_ws_tok w r (fun x hx => h x (List.mem_cons_of_mem c hx))]
    simp

theorem findCi_interleave : ∀ (e w r : Str),
    (∀ c ∈ e, pyLowerChar c ≠ '|') → (∀ c ∈ w, isPyWs c = true) →
    findCiTokenIdx TOKEN_LINE_BREAK (e ++ (w ++ (TOKEN_LINE_BREAK ++ r)))
      = some (e.length + w.length)
  | [], w, r, _, hw => by simpa using findCi_ws_tok w r hw
  | c :: e, w, r, he, hw => by
    rw [List.cons_append, findCi_cons,
      ciPrefixOf_tok_false _ _ (he c (List.mem_cons_self c e)),
      findCi_interleave e w r (fun x hx => he x (List.mem_cons_of_mem c hx)) hw]
    simp only [Bool.false_eq_true, if_false, Option.map_some]
    simp
    omega

theorem dropWhile_append_all (p : Char → Bool) :
    ∀ (w s : Str), (∀ c ∈ w, p c = true) →
    List.dropWhile p (w ++ s) = List.dropWhile p s
  | [], s, _ => rfl
  | c :: w, s, h => by
    rw [List.cons_append, List.dropWhile_cons_of_pos (h c (List.mem_cons_self c w))]
    exact dropWhile_append_all p w s (fun x hx => h x (List.mem_cons_of_mem c hx))

theorem dropWhile_head_false (p : Char → Bool) (s : Str)
    (h : s = [] ∨ ∃ c cs, s = c :: cs ∧ p c = false) :
    List.dropWhile p s = s := by
  rcases h with h | ⟨c, cs, rfl, hc⟩
  · simp [h]
  · exact List.dropWhile_cons_of_neg (by simp [hc])

theorem dropWhile_fixed_head (p : Char → Bool) (l : List Char)
    (h : l.dropWhile p = l) (hne : l ≠ []) :
    ∃ c cs, l = c :: cs ∧ p c = false := by
  cases l with
  | nil => exact absurd rfl hne
  | cons c cs =>
    refine ⟨c, cs, rfl, ?_⟩
    by_contra hc
    simp only [Bool.not_eq_false] at hc
    rw [List.dropWhile_cons_of_pos hc] at h
    have h2 := congrArg List.length h
    have hle : (cs.dropWhile p).length ≤ cs.length :=
      (List.dropWhile_suffix (l := cs) p).sublist.length_le
    simp at h2
    omega

theorem strip_fixed_parts (e : Str) (hs : pyStrip e = e) :
    e.dropWhile isPyWs = e ∧ e.reverse.dropWhile isPyWs = e.reverse := by
  have h1 : ((e.dropWhile isPyWs).reverse.dropWhile isPyWs).reverse = e := hs
  have len1 : (e.dropWhile isPyWs).length ≤ e.length :=
    (List.dropWhile_suffix (l := e) isPyWs).sublist.length_le
  have len2 : ((e.dropWhile isPyWs).reverse.dropWhile isPyWs).length
      ≤ (e.dropWhile isPyWs).length := by
    have := (List.dropWhile_suffix (l := (e.dropWhile isPyWs).reverse) isPyWs).sublist.length_le
    simpa using this
  have len3 := congrArg List.length h1
  simp only [List.length_reverse] at len3
  have ha : (e.dropWhile isPyWs).length = e.length := by omega
  have hfix : e.dropWhile isPyWs = e :=
    (List.dropWhile_suffix (l := e) isPyWs).sublist.eq_of_length ha
  refine ⟨hfix, ?_⟩
  rw [hfix] at h1
  have := congrArg List.reverse h1
  simpa using this

theorem dropTrailingWs_append (x w : Str) (hsx : pyStrip x = x)
    (hw : ∀ c ∈ w, isPyWs c = true) :
    dropTrailingWs (x ++ w) = x := by
  unfold dropTrailingWs
  rw [List.reverse_append]
  rw [dropWhile_append_all isPyWs w.reverse x.reverse
    (fun c hc => hw c (List.mem_reverse.mp hc))]
  rw [(strip_fixed_parts x hsx).2]
  exact List.reverse_reverse x

theorem interleave_cons_shape (y : Str) (M : List Str) (ws : List (Str × Str)) :
    ∃ t, mergedJoinPerturbed (y :: M) ws = y ++ t := by
  cases M with
  | nil => exact ⟨[], by simp [mergedJoinPerturbed]⟩
  | cons m M =>
    cases ws with
    | nil =>
      exact ⟨mergedJoinPerturbed (m :: M) [],
        by rw [mergedJoinPerturbed] <;> simp⟩
    | cons w ws =>
      exact ⟨w.1 ++ TOKEN_LINE_BREAK ++ w.2 ++ mergedJoinPerturbed (m :: M) ws,
        by rw [mergedJoinPerturbed] <;> simp [List.append_assoc]⟩

theorem split_aux_zero (t s : Str) : splitOnTokenWsAux t 0 s = [s] := rfl

theorem split_aux_succ (t : Str) (f : Nat) (s : Str) :
    splitOnTokenWsAux t (Nat.succ f) s =
      match findCiTokenIdx t s with
      | none => [s]
      | some q =>
        dropTrailingWs (s.take q) ::
          splitOnTokenWsAux t f ((s.drop (q + t.length)).dropWhile isPyWs) := rfl

theorem splitAux_interleave :
    ∀ (L : List Str) (ws : List (Str × Str)) (fuel : Nat),
      ws.length + 1 = L.length →
      (∀ e ∈ L, e ≠ [] ∧ pyStrip e = e ∧ ∀ c ∈ e, pyLowerChar c ≠ '|') →
      (∀ w ∈ ws, (∀ c ∈ w.1, isPyWs c = true) ∧ (∀ c ∈ w.2, isPyWs c = true)) →
      (mergedJoinPerturbed L ws).length ≤ fuel →
      splitOnTokenWsAux TOKEN_LINE_BREAK fuel (mergedJoinPerturbed L ws) = L
  | [], ws, fuel, hlen, _, _, _ => by simp at hlen
  | [x], ws, fuel, _, helem, _, _ => by
    have hx := helem x (List.mem_cons_self x [])
    have hjoin : mergedJoinPerturbed [x] ws = x := by rw [mergedJoinPerturbed]
    rw [hjoin]
    cases fuel with
    | zero => rfl
    | succ f =>
      rw [split_aux_succ, findCi_none_of_pipeFree x hx.2.2]
  | x :: y :: L', ws, fuel, hlen, helem, hws, hfuel => by
    match ws with
    | [] => simp at hlen
    | w :: ws' =>
      have hx := helem x (List.mem_cons_self x _)
      have hy := helem y (List.mem_cons_of_mem x (List.mem_cons_self y _))
      have hw := hws w (List.mem_cons_self w ws')
      set rest := mergedJoinPerturbed (y :: L') ws' with hrest
      have hjoin : mergedJoinPerturbed (x :: y :: L') (w :: ws') =
          x ++ (w.1 ++ (TOKEN_LINE_BREAK ++ (w.2 ++ rest))) := by
        rw [mergedJoinPerturbed] <;> simp [List.append_assoc]
      rw [hjoin] at hfuel ⊢
      have hxlen : 1 ≤ x.length := by
        cases hxe : x with
        | nil => exact absurd hxe hx.1
        | cons a as => simp [hxe]
      have htok : TOKEN_LINE_BREAK.length = 9 := rfl
      cases fuel with
      | zero =>
        exfalso
        simp [List.length_append, htok] at hfuel
      | succ f =>
        rw [split_aux_succ, findCi_interleave x w.1 (w.2 ++ rest) hx.2.2 hw.1]
        have htake : (x ++ (w.1 ++ (TOKEN_LINE_BREAK ++ (w.2 ++ rest)))).take
            (x.length + w.1.length) = x ++ w.1 := by
          rw [show x ++ (w.1 ++ (TOKEN_LINE_BREAK ++ (w.2 ++ rest))) =
              (x ++ w.1) ++ (TOKEN_LINE_BREAK ++ (w.2 ++ rest)) by
            simp [List.append_assoc]]
          exact List.take_left' (by simp)
        have hdrop : (x ++ (w.1 ++ (TOKEN_LINE_BREAK ++ (w.2 ++ rest)))).drop
            (x.length + w.1.length + TOKEN_LINE_BREAK.length) = w.2 ++ rest := by
          rw [show x ++ (w.1 ++ (TOKEN_LINE_BREAK ++ (w.2 ++ rest))) =
              ((x ++ w.1) ++ TOKEN_LINE_BREAK) ++ (w.2 ++ rest) by
            simp [List.append_assoc]]
          exact List.drop_left' (by simp [List.length_append]; omega)
        dsimp only
        rw [htake, hdrop]
        rw [dropTrailingWs_append x w.1 hx.2.1 hw.1]
        rw [dropWhile_append_all isPyWs w.2 rest hw.2]
        obtain ⟨t, ht⟩ := interleave_cons_shape y L' ws'
        have hyhead := dropWhile_fixed_head isPyWs y (strip_fixed_parts y hy.2.1).1 hy.1
        obtain ⟨c, cs, hyc, hcw⟩ := hyhead
        have hresthead : List.dropWhile isPyWs rest = rest := by
          rw [hrest, ht, hyc, List.cons_append]
          exact dropWhile_head_false isPyWs _ (Or.inr ⟨c, cs ++ t, rfl, hcw⟩)
        rw [hresthead]
        congr 1
        apply splitAux_interleave (y :: L') ws' f
        · simpa using hlen
        · exact fun e he => helem e (List.mem_cons_of_mem x he)
        · exact fun v hv => hws v (List.mem_cons_of_mem w hv)
        · rw [← hrest]
          simp [List.length_append, htok] at hfuel ⊢
          omega

theorem map_pyStrip_fixed : ∀ (L : List Str), (∀ e ∈ L, pyStrip e = e) → L.map pyStrip = L
  | [], _ => rfl
  | e :: L, h => by
    rw [List.map_cons, h e (List.mem_cons_self e L),
      map_pyStrip_fixed L (fun x hx => h x (List.mem_cons_of_mem e hx))]

theorem perturbed_cons_cons (x y : Str) (L : List Str) (w : Str × Str)
    (ws : List (Str × Str)) :
    mergedJoinPerturbed (x :: y :: L) (w :: ws) =
      x ++ (w.1 ++ (TOKEN_LINE_BREAK ++ (w.2 ++ mergedJoinPerturbed (y :: L) ws))) := by
  rw [mergedJoinPerturbed] <;> simp [List.append_assoc]

theorem mergedJoin_eq_perturbed : ∀ (L : List Str),
    mergedJoin L = mergedJoinPerturbed L (List.replicate (L.length - 1) (['\n'], ['\n']))
  | [] => rfl
  | [x] => by rw [mergedJoin, mergedJoinPerturbed]
  | x :: y :: L' => by
    have hm : mergedJoin (x :: y :: L') = x ++ mergeSep ++ mergedJoin (y :: L') := by
      rw [mergedJoin] <;> simp
    have hlen : (x :: y :: L').length - 1 = ((y :: L').length - 1) + 1 := by simp
    rw [hm, hlen, List.replicate_succ, perturbed_cons_cons]
    rw [mergedJoin_eq_perturbed (y :: L')]
    simp [mergeSep, List.append_assoc]

theorem splitLines_interleave
    (L : List Str) (entries : List MergeEntry) (ws : List (Str × Str))
    (hL : 2 ≤ L.length) (hent : entries.length = L.length)
    (hws : ws.length + 1 = L.length)
    (helem : ∀ e ∈ L, e ≠ [] ∧ pyStrip e = e ∧ ∀ c ∈ e, pyLowerChar c ≠ '|')
    (hwsOk : ∀ w ∈ ws, (∀ c ∈ w.1, isPyWs c = true) ∧ (∀ c ∈ w.2, isPyWs c = true))
    (hnorm : normalizeLineBreakTokens (mergedJoinPerturbed L ws) = mergedJoinPerturbed L ws) :
    splitLines (mergedJoinPerturbed L ws) entries = (L, entries.length, false) := by
  obtain ⟨x, y, L', rfl⟩ : ∃ x y L', L = x :: y :: L' := by
    match L, hL with
    | x :: y :: L', _ => exact ⟨x, y, L', rfl⟩
  match ws, hws with
  | w :: ws', hws =>
  have hjoin : mergedJoinPerturbed (x :: y :: L') (w :: ws') =
      x ++ (w.1 ++ (TOKEN_LINE_BREAK ++ (w.2 ++ mergedJoinPerturbed (y :: L') ws'))) := by
    rw [mergedJoinPerturbed] <;> simp [List.append_assoc]
  have hcontains : containsSub TOKEN_LINE_BREAK (mergedJoinPerturbed (x :: y :: L') (w :: ws')) = true := by
    rw [hjoin, show x ++ (w.1 ++ (TOKEN_LINE_BREAK ++ (w.2 ++ mergedJoinPerturbed (y :: L') ws'))) =
        (x ++ w.1) ++ (TOKEN_LINE_BREAK ++ (w.2 ++ mergedJoinPerturbed (y :: L') ws')) from by
      simp [List.append_assoc]]
    exact containsSub_append_self (x ++ w.1) TOKEN_LINE_BREAK _ (by rw [tok_eq]; simp)
  have hsplit : splitOnTokenWs TOKEN_LINE_BREAK (mergedJoinPerturbed (x :: y :: L') (w :: ws'))
      = x :: y :: L' :=
    splitAux_interleave (x :: y :: L') (w :: ws') _ hws helem hwsOk (le_refl _)
  have hstrip : (x :: y :: L').map pyStrip = x :: y :: L' :=
    map_pyStrip_fixed _ (fun e he => (helem e he).2.1)
  simp only [splitLines, hnorm, hcontains, if_true, hsplit, hstrip]
  have hlenrw : (x :: y :: L').length = entries.length := hent.symm
  rw [if_neg]
  · simp [hent]
  · rw [hlenrw]
    simp

/-- C3: the path-segment codec is claimed reversible for every key,
including keys already containing the literal escape token `__DOT__`.
The code un-escapes in the wrong order (`__DOT_ESC__ → __DOT__` first,
then `__DOT__ → .`), so the key `"__DOT__"` round-trips to `"."`,
contradicting the docstring "so path parsing is reversible". -/
theorem c3_path_codec_not_reversible :
    unescapePathKey (escapePathKey "__DOT__".data) = ".".data ∧
    "__DOT__".data ≠ ".".data := by
  exact ⟨rfl, by decide⟩

/-- C8: the repair regex `r'\\ \s+([a-zA-Z\x7b\x7d])'` requires a literal
space plus at least one more whitespace character, so the single-space
corruption `"\ c[0]"` — the very example in the code comment and the
spec — is left unrepaired, while the two-space variant is collapsed. -/
theorem c8_repair_misses_single_space :
    fixTranslationSpacing "\\ c[0]".data = "\\ c[0]".data ∧
    fixTranslationSpacing "\\  c[0]".data = "\\c[0]".data :=
  ⟨rfl, rfl⟩

/-- C1: injecting a translation for the extracted path `JS_SRC_0` of a
non-main JS file splices the escaped value over the span including both
quote characters without re-emitting them: the output `var msg = Merhaba;`
has lost the quotes of the original literal, so the injector does not
leave the surrounding quote characters intact. -/
theorem c1_js_injection_drops_quotes :
    extractTranslatableStrings "var msg = \"Hello world\";".data =
      [⟨10, 23, "Hello world".data, '"'⟩] ∧
    applyToJsSource "var msg = \"Hello world\";".data
        [("JS_SRC_0".data, "Merhaba".data)] = "var msg = Merhaba;".data ∧
    ¬ containsSub "\"".data "var msg = Merhaba;".data := by
  refine ⟨rfl, rfl, by decide⟩

/-- C4 counterexample: for `L = ["a ", "b"]` (two non-empty strings) the
merger split of the canonical join returns `["a", "b"] ≠ L`, because
`_split_lines` strips every piece. -/
theorem c4_counterexample_strip :
    (splitLines (mergedJoin ["a ".data, "b".data])
        [([], [], "a ".data), ([], [], "b".data)]).1 = ["a".data, "b".data] ∧
    (splitLines (mergedJoin ["a ".data, "b".data])
        [([], [], "a ".data), ([], [], "b".data)]).1 ≠ ["a ".data, "b".data] ∧
    "a ".data ≠ ([] : Str) ∧ "b".data ≠ ([] : Str) := by
  refine ⟨rfl, by decide, by decide, by decide⟩

/-- C4 (amended): for every list `L` of at least two entries that are
non-empty, whitespace-stripped, and free of the separator's pipe
character (so no separator fragment can occur inside or across
elements), and whose joined text the token normalizer leaves unchanged,
`_split_lines` recovers exactly `L` with no mismatch — both on the
canonical `flush_block` join and on any perturbation that replaces the
whitespace around each separator token by arbitrary whitespace runs. -/
theorem c4_merger_roundtrip_amended
    (L : List Str) (entries : List MergeEntry) (ws : List (Str × Str))
    (hL : 2 ≤ L.length) (hent : entries.length = L.length)
    (hws : ws.length + 1 = L.length)
    (helem : ∀ e ∈ L, e ≠ [] ∧ pyStrip e = e ∧ ∀ c ∈ e, pyLowerChar c ≠ '|')
    (hwsOk : ∀ w ∈ ws, (∀ c ∈ w.1, isPyWs c = true) ∧ (∀ c ∈ w.2, isPyWs c = true))
    (hnormP : normalizeLineBreakTokens (mergedJoinPerturbed L ws) = mergedJoinPerturbed L ws) :
    (splitLines (mergedJoinPerturbed L ws) entries).1 = L ∧
    (splitLines (mergedJoinPerturbed L ws) entries).2.2 = false ∧
    (normalizeLineBreakTokens (mergedJoin L) = mergedJoin L →
      (splitLines (mergedJoin L) entries).1 = L) := by
  have h1 := splitLines_interleave L entries ws hL hent hws helem hwsOk hnormP
  refine ⟨by rw [h1], by rw [h1], fun hnormC => ?_⟩
  rw [mergedJoin_eq_perturbed L] at hnormC ⊢
  have hrep : (List.replicate (L.length - 1) ((['\n'], ['\n']) : Str × Str)).length + 1
      = L.length := by
    simp
    omega
  have hwsOk' : ∀ w ∈ List.replicate (L.length - 1) ((['\n'], ['\n']) : Str × Str),
      (∀ c ∈ w.1, isPyWs c = true) ∧ (∀ c ∈ w.2, isPyWs c = true) := by
    intro w hw
    rw [List.eq_of_mem_replicate hw]
    constructor <;> (intro c hc; simp at hc; subst hc; decide)
  have h2 := splitLines_interleave L entries _ hL hent hrep helem hwsOk' hnormC
  rw [h2]

theorem c4_merger_roundtrip_amended_witness :
    (splitLines (mergedJoinPerturbed ["ab".data, "cd".data] [(['\n'], ['\n'])])
        [([], [], []), ([], [], [])]).1 = ["ab".data, "cd".data] :=
  (c4_merger_roundtrip_amended ["ab".data, "cd".data] [([], [], []), ([], [], [])]
    [(['\n'], ['\n'])] (by decide) (by decide) (by decide) (by decide) (by decide)
    (by rfl)).1

/-! ### Pipeline retry lemmas -/


theorem queueRetry_cons (f : Str) (e : MergeEntry) (o : List MergeEntry) (st : PipeState) :
    queueRetry f (e :: o) st =
      queueRetry f o
        (if st.retrySeen.contains (f, e.2.1) then st
         else
           { st with
             retrySeen := st.retrySeen ++ [(f, e.2.1)]
             retryEntries := st.retryEntries ++ [(f, e.2.1, e.2.2, e.1)] }) := by
  unfold queueRetry
  rw [List.foldl_cons]

theorem queueRetry_results : ∀ (o : List MergeEntry) (f : Str) (st : PipeState),
    (queueRetry f o st).results = st.results
  | [], _, _ => rfl
  | e :: o, f, st => by
    rw [queueRetry_cons]
    rw [queueRetry_results o f _]
    split <;> rfl

theorem queueRetry_entries_extend : ∀ (o : List MergeEntry) (f : Str) (st : PipeState),
    ∃ tail, (queueRetry f o st).retryEntries = st.retryEntries ++ tail
  | [], _, st => ⟨[], by simp [queueRetry]⟩
  | e :: o, f, st => by
    rw [queueRetry_cons]
    split
    · exact queueRetry_entries_extend o f st
    · obtain ⟨tail, ht⟩ := queueRetry_entries_extend o f
        { st with
          retrySeen := st.retrySeen ++ [(f, e.2.1)]
          retryEntries := st.retryEntries ++ [(f, e.2.1, e.2.2, e.1)] }
      refine ⟨(f, e.2.1, e.2.2, e.1) :: tail, ?_⟩
      rw [ht]
      simp

theorem queueRetry_mem : ∀ (o : List MergeEntry) (f : Str) (st : PipeState),
    (∀ e ∈ o, (f, e.2.1) ∉ st.retrySeen) →
    o.Pairwise (fun a b => a.2.1 ≠ b.2.1) →
    ∀ e ∈ o, (f, e.2.1, e.2.2, e.1) ∈ (queueRetry f o st).retryEntries
  | [], _, _, _, _, e, he => absurd he (List.not_mem_nil e)
  | x :: o, f, st, hfresh, hdist, e, he => by
    rw [queueRetry_cons]
    have hxfresh : (f, x.2.1) ∉ st.retrySeen := hfresh x (List.mem_cons_self x o)
    have hcont : ¬ (st.retrySeen.contains (f, x.2.1) = true) := by
      simpa [List.elem_iff] using hxfresh
    rw [if_neg hcont]
    rcases List.mem_cons.mp he with rfl | he'
    · obtain ⟨tail, ht⟩ := queueRetry_entries_extend o f _
      rw [ht]
      simp
    · apply queueRetry_mem o f _ _ (List.Pairwise.of_cons hdist) e he'
      intro e' he''
      simp only [List.mem_append, List.mem_singleton]
      rintro (h | h)
      · exact hfresh e' (List.mem_cons_of_mem x he'') h
      · have hne := (List.pairwise_cons.mp hdist).1 e' he''
        have h2 : e'.2.1 = x.2.1 := congrArg Prod.snd h
        exact hne h2.symm

/-- C5: whenever splitting a translated merged batch of `n` original
entries yields a piece count different from `n`,
`split_merged_result_checked` returns `mismatch = true`, and processing
that result commits none of the split pieces to the results map and
queues every one of the `n` entries (with pairwise-distinct, not
previously retried keys) as an individual unmerged retry request. -/
theorem c5_mismatch_isolation
    (translated file : Str) (origs : List MergeEntry) (st : PipeState)
    (hfresh : ∀ e ∈ origs, (file, e.2.1) ∉ st.retrySeen)
    (hdist : origs.Pairwise (fun a b => a.2.1 ≠ b.2.1)) :
    ((splitLines translated origs).1.length ≠ origs.length ↔
      (splitMergedResultChecked translated origs).2 = true) ∧
    ((splitMergedResultChecked translated origs).2 = true →
      (processMergedSuccess file translated origs st).results = st.results ∧
      ∀ e ∈ origs,
        (file, e.2.1, e.2.2, e.1) ∈
          (processMergedSuccess file translated origs st).retryEntries ∧
        (⟨e.2.2, file, e.2.1, false⟩ : TransRequest) ∈
          buildRetryRequests (processMergedSuccess file translated origs st).retryEntries) := by
  have hexp : (splitLines translated origs).2.1 = origs.length := rfl
  have hmis : (splitMergedResultChecked translated origs).2 = true ↔
      (splitLines translated origs).1.length ≠ origs.length := by
    unfold splitMergedResultChecked
    dsimp only
    split
    next h => simp only [hexp] at h; simp [h]
    next h => simp only [hexp] at h; simp [h]
  constructor
  · exact hmis.symm
  · intro hm
    have hproc : processMergedSuccess file translated origs st
        = queueRetry file origs st := by
      unfold processMergedSuccess
      rw [if_pos hm]
    rw [hproc]
    refine ⟨queueRetry_results origs file st, fun e he => ?_⟩
    have hmem := queueRetry_mem origs file st hfresh hdist e he
    refine ⟨hmem, ?_⟩
    have := List.mem_map_of_mem
      (f := fun q : Str × Str × Str × Str =>
        (⟨q.2.2.1, q.1, q.2.1, false⟩ : TransRequest)) hmem
    simpa [buildRetryRequests] using this

theorem c5_mismatch_isolation_witness :
    (splitMergedResultChecked "x".data
        [("d1".data, "k1".data, "t1".data), ("d2".data, "k2".data, "t2".data)]).2 = true ∧
    (processMergedSuccess "f".data "x".data
        [("d1".data, "k1".data, "t1".data), ("d2".data, "k2".data, "t2".data)]
        ⟨[], [], []⟩).results = [] ∧
    ("f".data, "k1".data, "t1".data, "d1".data) ∈
      (processMergedSuccess "f".data "x".data
        [("d1".data, "k1".data, "t1".data), ("d2".data, "k2".data, "t2".data)]
        ⟨[], [], []⟩).retryEntries := by
  have h := c5_mismatch_isolation "x".data "f".data
    [("d1".data, "k1".data, "t1".data), ("d2".data, "k2".data, "t2".data)]
    ⟨[], [], []⟩ (by decide) (by decide)
  have hm : (splitMergedResultChecked "x".data
      [("d1".data, "k1".data, "t1".data), ("d2".data, "k2".data, "t2".data)]).2 = true := by
    decide
  exact ⟨hm, (h.2 hm).1, (((h.2 hm).2 ("d1".data, "k1".data, "t1".data)) (by decide)).1⟩

/-! ### Restoration validation lemmas -/

theorem mergedFoldr_empty_iff (restored : Str) : ∀ (l : List (Str × Str)),
    (l.foldr
      (fun p acc =>
        if p.2 = TOKEN_LINE_BREAK then acc
        else if isDecorative p.2 then acc
        else if containsSub (cleanForCompare p.2) (cleanForCompare restored) then acc
        else p.2 :: acc) [] = []) ↔
      ∀ p ∈ l, p.2 = TOKEN_LINE_BREAK ∨ isDecorative p.2 = true ∨
        containsSub (cleanForCompare p.2) (cleanForCompare restored) = true
  | [] => by simp
  | p :: rest => by
    rw [List.foldr_cons]
    have ih := mergedFoldr_empty_iff restored rest
    constructor
    · intro h q hq
      by_cases h1 : p.2 = TOKEN_LINE_BREAK
      · rw [if_pos h1] at h
        rcases List.mem_cons.mp hq with rfl | hq'
        · exact Or.inl h1
        · exact ih.mp h q hq'
      · rw [if_neg h1] at h
        by_cases h2 : isDecorative p.2
        · rw [if_pos h2] at h
          rcases List.mem_cons.mp hq with rfl | hq'
          · exact Or.inr (Or.inl h2)
          · exact ih.mp h q hq'
        · rw [if_neg h2] at h
          by_cases h3 : containsSub (cleanForCompare p.2) (cleanForCompare restored)
          · rw [if_pos h3] at h
            rcases List.mem_cons.mp hq with rfl | hq'
            · exact Or.inr (Or.inr h3)
            · exact ih.mp h q hq'
          · rw [if_neg h3] at h
            exact absurd h (List.cons_ne_nil _ _)
    · intro h
      have hp := h p (List.mem_cons_self p rest)
      have hr := ih.mpr (fun q hq => h q (List.mem_cons_of_mem p hq))
      by_cases h1 : p.2 = TOKEN_LINE_BREAK
      · rw [if_pos h1]; exact hr
      · rw [if_neg h1]
        by_cases h2 : isDecorative p.2
        · rw [if_pos h2]; exact hr
        · rw [if_neg h2]
          rcases hp with hp1 | hp2 | hp3
          · exact absurd hp1 h1
          · exact absurd hp2 h2
          · rw [if_pos hp3]; exact hr

theorem plainFoldr_empty_iff (restored : Str) : ∀ (l : List (Str × Str)),
    (l.foldr
      (fun p acc =>
        if containsSub (cleanForCompare p.2) (cleanForCompare restored) then acc
        else p.2 :: acc) [] = []) ↔
      ∀ p ∈ l, containsSub (cleanForCompare p.2) (cleanForCompare restored) = true
  | [] => by simp
  | p :: rest => by
    rw [List.foldr_cons]
    have ih := plainFoldr_empty_iff restored rest
    by_cases h3 : containsSub (cleanForCompare p.2) (cleanForCompare restored)
    · rw [if_pos h3]
      constructor
      · intro h q hq
        rcases List.mem_cons.mp hq with rfl | hq'
        · exact h3
        · exact ih.mp h q hq'
      · intro h
        exact ih.mpr (fun q hq => h q (List.mem_cons_of_mem p hq))
    · rw [if_neg h3]
      constructor
      · intro h
        exact absurd h (List.cons_ne_nil _ _)
      · intro h
        exact absurd (h p (List.mem_cons_self p rest)) h3

/-- C6 counterexample: for the non-merged map `{k: "\C[1]"}` and restored
text `"x"`, the claim's criterion (the decorative fragment `\C[1]` may be
missing) predicts `ok = True`, but the code returns `ok = False` with
`\C[1]` reported missing: the decorative exemption applies only when the
map contains the line-break token. -/

theorem c6_counterexample_decorative_strict :
    (∀ p ∈ ([("k".data, "\\C[1]".data)] : List (Str × Str)),
      p.2 = TOKEN_LINE_BREAK ∨ isDecorative p.2 = true ∨
        containsSub (cleanForCompare p.2) (cleanForCompare "x".data) = true) ∧
    (validateRestoration "x".data "x".data [("k".data, "\\C[1]".data)]).1 = false ∧
    (validateRestoration "x".data "x".data [("k".data, "\\C[1]".data)]).2
      = ["\\C[1]".data] := by
  refine ⟨by decide, rfl, rfl⟩

/-- C6 (amended): `validate_restoration` returns `ok = True` iff every
fragment in the map appears in the restored text under the
space-removed, case-insensitive match — where the `\C[n]`/`\I[n]`
decorative exemption and the line-break-token exemption apply only when
the map contains the merged-block line-break token; otherwise every
fragment (decorative ones included) must appear. -/
theorem c6_validate_characterization
    (original restored : Str) (m : List (Str × Str)) :
    (validateRestoration original restored m).1 = true ↔
      ∀ p ∈ m,
        (if (m.map Prod.snd).contains TOKEN_LINE_BREAK then
          p.2 = TOKEN_LINE_BREAK ∨ isDecorative p.2 = true ∨
            containsSub (cleanForCompare p.2) (cleanForCompare restored) = true
        else
          containsSub (cleanForCompare p.2) (cleanForCompare restored) = true) := by
  unfold validateRestoration
  dsimp only
  by_cases hm : (m.map Prod.snd).contains TOKEN_LINE_BREAK
  · rw [if_pos hm, List.isEmpty_iff]
    simp only [hm, if_true]
    exact mergedFoldr_empty_iff restored m
  · rw [if_neg hm, List.isEmpty_iff]
    simp only [hm, if_false]
    exact plainFoldr_empty_iff restored m

/-! ### Decimal rendering and Scripts extraction lemmas -/

theorem digitsVal_foldl : ∀ (s : Str) (a : Nat),
    List.foldl (fun a c => a * 10 + (c.toNat - 48)) a s
      = a * 10 ^ s.length + digitsVal s
  | [], a => by simp [digitsVal]
  | c :: s, a => by
    have h1 := digitsVal_foldl s (a * 10 + (c.toNat - 48))
    have h2 := digitsVal_foldl s (0 * 10 + (c.toNat - 48))
    simp only [List.foldl_cons, digitsVal] at h1 h2 ⊢
    rw [h1, h2]
    simp only [List.length_cons, pow_succ]
    ring

theorem natRepr_small (n : Nat) (h : n < 10) : natRepr n = [digitChar n] := by
  cases n with
  | zero => rfl
  | succ m =>
    show natReprAux (m + 1) (m + 1) [] = _
    rw [natReprAux, if_pos h]

theorem natReprAux_acc (n : Nat) : ∀ (fuel : Nat) (acc : Str), n ≤ fuel →
    natReprAux fuel n acc = natRepr n ++ acc := by
  induction n using Nat.strong_induction_on with
  | _ n ih =>
    intro fuel acc hle
    match fuel with
    | 0 =>
      have hn : n = 0 := Nat.le_zero.mp hle
      subst hn
      rfl
    | Nat.succ f =>
      by_cases h10 : n < 10
      · rw [natReprAux, if_pos h10, natRepr_small n h10]
        rfl
      · push_neg at h10
        have hdivlt : n / 10 < n := Nat.div_lt_self (by omega) (by omega)
        have hdivf : n / 10 ≤ f := by omega
        rw [natReprAux, if_neg (by omega)]
        rw [ih (n / 10) hdivlt f _ hdivf]
        have hrhs : natRepr n = natRepr (n / 10) ++ [digitChar (n % 10)] := by
          have hn1 : ∃ m, n = m + 1 := ⟨n - 1, by omega⟩
          obtain ⟨m, hm⟩ := hn1
          show natReprAux n n [] = _
          conv_lhs => rw [hm]
          rw [natReprAux, if_neg (by omega)]
          rw [← hm, ih (n / 10) hdivlt m _ (by omega)]
        rw [hrhs, List.append_assoc]
        rfl

theorem digitChar_toNat (d : Nat) (h : d < 10) : (digitChar d).toNat = 48 + d := by
  interval_cases d <;> decide

theorem digitsVal_natRepr (n : Nat) : digitsVal (natRepr n) = n := by
  induction n using Nat.strong_induction_on with
  | _ n ih =>
    by_cases h10 : n < 10
    · rw [natRepr_small n h10]
      simp [digitsVal, digitChar_toNat n h10]
    · push_neg at h10
      have hdivlt : n / 10 < n := Nat.div_lt_self (by omega) (by omega)
      have hrhs : natRepr n = natRepr (n / 10) ++ [digitChar (n % 10)] := by
        have hn1 : ∃ m, n = m + 1 := ⟨n - 1, by omega⟩
        obtain ⟨m, hm⟩ := hn1
        show natReprAux n n [] = _
        conv_lhs => rw [hm]
        rw [natReprAux, if_neg (by omega)]
        rw [← hm, natReprAux_acc (n / 10) m _ (by omega)]
      rw [hrhs]
      have hsplit : digitsVal (natRepr (n / 10) ++ [digitChar (n % 10)])
          = digitsVal (natRepr (n / 10)) * 10 + ((digitChar (n % 10)).toNat - 48) := by
        simp [digitsVal, List.foldl_append]
      rw [hsplit, ih (n / 10) hdivlt, digitChar_toNat (n % 10) (Nat.mod_lt n (by omega))]
      omega

theorem natRepr_inj {a b : Nat} (h : natRepr a = natRepr b) : a = b := by
  have := congrArg digitsVal h
  rwa [digitsVal_natRepr, digitsVal_natRepr] at this

theorem extractAux_mem_of (pathPre : Str) :
    ∀ (ts : List (Nat × Nat × Str × Char)) (idx : Nat) (seen : List Str)
      (j : Nat) (hj : j < ts.length),
      isValidScriptString (ts.get ⟨j, hj⟩).2.2.1 = true →
      (∀ k (hk : k < j), (ts.get ⟨k, Nat.lt_trans hk hj⟩).2.2.1 ≠ (ts.get ⟨j, hj⟩).2.2.1) →
      (ts.get ⟨j, hj⟩).2.2.1 ∉ seen →
      (pathPre ++ ".string_".data ++ natRepr (idx + j), (ts.get ⟨j, hj⟩).2.2.1,
        "script".data) ∈ extractFromCodeAux pathPre idx ts seen
  | [], _, _, j, hj => absurd hj (by simp)
  | t :: ts, idx, seen, 0, hj => by
    intro hvalid _ hseen
    simp only [List.get] at hvalid hseen ⊢
    unfold extractFromCodeAux
    rw [if_neg (by simpa [List.elem_iff] using hseen), if_pos hvalid]
    simp
  | t :: ts, idx, seen, Nat.succ j, hj => by
    intro hvalid hdist hseen
    have hj' : j < ts.length := by simpa using hj
    simp only [List.get] at hvalid hseen ⊢
    unfold extractFromCodeAux
    have harith : idx + 1 + j = idx + (j + 1) := by omega
    by_cases h1 : seen.contains t.2.2.1
    · rw [if_pos h1]
      have := extractAux_mem_of pathPre ts (idx + 1) seen j hj' hvalid
        (fun k hk => hdist (k + 1) (by omega)) hseen
      rwa [harith] at this
    · rw [if_neg h1]
      by_cases h2 : isValidScriptString t.2.2.1
      · rw [if_pos h2]
        have hne0 : t.2.2.1 ≠ (ts.get ⟨j, hj'⟩).2.2.1 := hdist 0 (by omega)
        have := extractAux_mem_of pathPre ts (idx + 1) (seen ++ [t.2.2.1]) j hj' hvalid
          (fun k hk => hdist (k + 1) (by omega))
          (by
            simp only [List.mem_append, List.mem_singleton]
            rintro (h | h)
            · exact hseen h
            · exact hne0 h.symm)
        rw [harith] at this
        exact List.mem_cons_of_mem _ this
      · rw [if_neg h2]
        have := extractAux_mem_of pathPre ts (idx + 1) seen j hj' hvalid
          (fun k hk => hdist (k + 1) (by omega)) hseen
        rwa [harith] at this

theorem extractAux_mem_inv (pathPre : Str) :
    ∀ (ts : List (Nat × Nat × Str × Char)) (idx : Nat) (seen : List Str)
      (p t g : Str), (p, t, g) ∈ extractFromCodeAux pathPre idx ts seen →
      ∃ i, ∃ hi : i < ts.length,
        p = pathPre ++ ".string_".data ++ natRepr (idx + i) ∧
        t = (ts.get ⟨i, hi⟩).2.2.1 ∧ g = "script".data ∧
        isValidScriptString t = true ∧ t ∉ seen ∧
        ∀ k (hk : k < i), (ts.get ⟨k, Nat.lt_trans hk hi⟩).2.2.1 ≠ t
  | [], idx, seen, p, t, g => by
    intro h
    exact absurd h (List.not_mem_nil _)
  | tok :: ts, idx, seen, p, t, g => by
    intro h
    unfold extractFromCodeAux at h
    by_cases h1 : seen.contains tok.2.2.1
    · rw [if_pos h1] at h
      obtain ⟨i, hi, hp, ht, hg, hv, hs, hd⟩ := extractAux_mem_inv pathPre ts (idx + 1) seen p t g h
      refine ⟨i + 1, by simpa using Nat.succ_lt_succ hi, ?_, ?_, hg, hv, hs, ?_⟩
      · rwa [show idx + (i + 1) = idx + 1 + i by omega]
      · simpa using ht
      · intro k hk
        match k with
        | 0 =>
          have htokseen : tok.2.2.1 ∈ seen := by simpa [List.elem_iff] using h1
          simp only [List.get]
          intro he
          rw [← he] at hs
          exact hs htokseen
        | Nat.succ k' => simpa using hd k' (by omega)
    · rw [if_neg h1] at h
      by_cases h2 : isValidScriptString tok.2.2.1
      · rw [if_pos h2] at h
        rcases List.mem_cons.mp h with heq | hmem
        · have hp : p = pathPre ++ ".string_".data ++ natRepr idx :=
            congrArg Prod.fst heq
          have ht : t = tok.2.2.1 := congrArg (fun q => q.2.1) heq
          have hg : g = "script".data := congrArg (fun q => q.2.2) heq
          refine ⟨0, by simp, ?_, ?_, hg, ?_, ?_, fun k hk => absurd hk (by omega)⟩
          · rw [Nat.add_zero]
            exact hp
          · simpa [List.get] using ht
          · rw [ht]
            exact h2
          · rw [ht]
            simpa [List.elem_iff] using h1
        · obtain ⟨i, hi, hp, ht, hg, hv, hs, hd⟩ :=
            extractAux_mem_inv pathPre ts (idx + 1) (seen ++ [tok.2.2.1]) p t g hmem
          have hsseen : t ∉ seen := fun hx => hs (by simp [hx])
          have hne0 : t ≠ tok.2.2.1 := fun hx => hs (by simp [hx])
          refine ⟨i + 1, by simpa using Nat.succ_lt_succ hi, ?_, ?_, hg, hv, hsseen, ?_⟩
          · rwa [show idx + (i + 1) = idx + 1 + i by omega]
          · simpa using ht
          · intro k hk
            match k with
            | 0 =>
              simp only [List.get]
              exact fun he => hne0 he.symm
            | Nat.succ k' => simpa using hd k' (by omega)
      · rw [if_neg h2] at h
        obtain ⟨i, hi, hp, ht, hg, hv, hs, hd⟩ := extractAux_mem_inv pathPre ts (idx + 1) seen p t g h
        refine ⟨i + 1, by simpa using Nat.succ_lt_succ hi, ?_, ?_, hg, hv, hs, ?_⟩
        · rwa [show idx + (i + 1) = idx + 1 + i by omega]
        · simpa using ht
        · intro k hk
          match k with
          | 0 =>
            simp only [List.get]
            intro he
            rw [he] at h2
            exact h2 hv
          | Nat.succ k' => simpa using hd k' (by omega)

/-- C9 counterexample: in a script whose code contains the valid literal
`"Go now"` twice, the Ruby tokenizer finds both occurrences but
`_extract_from_code` emits only `string_0`: the `seen_strings` dedup
skips the second occurrence, so not every valid literal occurrence is
emitted. -/
theorem c9_counterexample_dedup :
    isValidScriptString "Go now".data = true ∧
    tokenizeRubyScript "a = \"Go now\"\nb = \"Go now\"".data
      = [(4, 12, "Go now".data, '"'), (17, 25, "Go now".data, '"')] ∧
    extractFromCode "a = \"Go now\"\nb = \"Go now\"".data "0.code".data
      = [("0.code.string_0".data, "Go now".data, "script".data)] ∧
    ("0.code.string_1".data, "Go now".data, "script".data)
      ∉ extractFromCode "a = \"Go now\"\nb = \"Go now\"".data "0.code".data := by
  refine ⟨rfl, rfl, rfl, by decide⟩

/-- C9 (amended): for the decoded code of a Scripts entry, the triple
`(prefix.string_j, text_j, "script")` is emitted by `_extract_from_code`
iff the `j`-th tokenized literal passes the validity filter and no
earlier tokenized literal has the same text (first occurrences of each
distinct valid text, with `j` the ordinal among all tokenized
literals). -/
theorem c9_scripts_extraction_amended (code pathPre : Str) (j : Nat)
    (hj : j < (tokenizeRubyScript code).length) :
    ((pathPre ++ ".string_".data ++ natRepr j,
        ((tokenizeRubyScript code).get ⟨j, hj⟩).2.2.1, "script".data)
      ∈ extractFromCode code pathPre)
    ↔ (isValidScriptString ((tokenizeRubyScript code).get ⟨j, hj⟩).2.2.1 = true ∧
       ∀ k (hk : k < j),
         ((tokenizeRubyScript code).get ⟨k, Nat.lt_trans hk hj⟩).2.2.1
           ≠ ((tokenizeRubyScript code).get ⟨j, hj⟩).2.2.1) := by
  constructor
  · intro h
    obtain ⟨i, hi, hp, ht, _, hv, _, hd⟩ :=
      extractAux_mem_inv pathPre (tokenizeRubyScript code) 0 [] _ _ _ h
    have hij : j = i := by
      have h1 := List.append_cancel_left (List.append_cancel_left
        ((List.append_assoc pathPre ".string_".data (natRepr j)) ▸
         (List.append_assoc pathPre ".string_".data (natRepr (0 + i))) ▸ hp))
      exact natRepr_inj (by rwa [Nat.zero_add] at h1)
    subst hij
    have hget : ((tokenizeRubyScript code).get ⟨j, hj⟩) = ((tokenizeRubyScript code).get ⟨j, hi⟩) := rfl
    rw [hget, ← ht]
    refine ⟨hv, fun k hk => ?_⟩
    have := hd k hk
    rwa [← ht] at this
  · intro ⟨hv, hd⟩
    have := extractAux_mem_of pathPre (tokenizeRubyScript code) 0 [] j hj hv hd
      (List.not_mem_nil _)
    rwa [Nat.zero_add] at this

theorem c9_scripts_extraction_amended_witness :
    (("0.code".data ++ ".string_".data ++ natRepr 0,
      ((tokenizeRubyScript "a = \"Go now\"\nb = \"Go now\"".data).get
        ⟨0, by decide⟩).2.2.1,
      "script".data)
      ∈ extractFromCode "a = \"Go now\"\nb = \"Go now\"".data "0.code".data) :=
  (c9_scripts_extraction_amended "a = \"Go now\"\nb = \"Go now\"".data "0.code".data 0
    (by decide)).mpr ⟨by decide, fun k hk => absurd hk (Nat.not_lt_zero k)⟩

/-! ### JS tokenizer span lemmas -/


theorem skipTemplExpr_succ (f d : Nat) (c : Char) (cs : Str) :
    skipTemplExpr (Nat.succ f) d (c :: cs) =
      (let e := if c = '\x7b' then d + 1 else if c = '\x7d' then d - 1 else d
       if e = 0 then (1, cs)
       else
         let r := skipTemplExpr f e cs
         (r.1 + 1, r.2)) := rfl

theorem skipTemplExpr_decomp : ∀ (f d : Nat) (s : Str), s.length ≤ f →
    ∃ pre : Str, s = pre ++ (skipTemplExpr f d s).2 ∧ pre.length = (skipTemplExpr f d s).1
  | 0, d, s, h => by
    have : s = [] := List.length_eq_zero.mp (Nat.le_zero.mp h)
    subst this
    exact ⟨[], by simp [skipTemplExpr]⟩
  | Nat.succ f, d, [], _ => ⟨[], by simp [skipTemplExpr]⟩
  | Nat.succ f, d, c :: cs, h => by
    rw [skipTemplExpr_succ]
    dsimp only
    by_cases hz : (if c = '\x7b' then d + 1 else if c = '\x7d' then d - 1 else d) = 0
    · rw [if_pos hz]
      exact ⟨[c], by simp⟩
    · rw [if_neg hz]
      obtain ⟨pre, hpre, hlen⟩ := skipTemplExpr_decomp f
        (if c = '\x7b' then d + 1 else if c = '\x7d' then d - 1 else d) cs
        (by simp at h; omega)
      refine ⟨c :: pre, ?_, by simp [hlen]⟩
      simp only [List.cons_append]
      rw [← hpre]

theorem exLit_succ (quote : Char) (f : Nat) (c : Char) (cs : Str) :
    exLit quote (Nat.succ f) (c :: cs) =
      (if c = '\\' then
        match cs with
        | e :: cs' =>
          let r := exLit quote f cs'
          let v := if quote = btCh then e else escMapChar e
          ⟨r.consumed + 2, v :: r.value, r.term, r.rest⟩
        | [] => ⟨1, [], false, []⟩
      else if c = quote then ⟨1, [], true, cs⟩
      else if quote = btCh ∧ c = '$' ∧ cs.head? = some '\x7b' then
        let cs' := cs.drop 1
        let e := skipTemplExpr cs'.length 1 cs'
        let r := exLit quote f e.2
        ⟨2 + e.1 + r.consumed, "$\x7b...\x7d".data ++ r.value, r.term, r.rest⟩
      else
        let r := exLit quote f cs
        ⟨r.consumed + 1, c :: r.value, r.term, r.rest⟩) := rfl

theorem exLit_term_decomp : ∀ (quote : Char) (f : Nat) (s : Str), s.length ≤ f →
    (exLit quote f s).term = true →
    ∃ rawInner : Str, s = rawInner ++ quote :: (exLit quote f s).rest ∧
      rawInner.length + 1 = (exLit quote f s).consumed
  | _, 0, s, _, ht => by simp [exLit] at ht
  | _, Nat.succ f, [], _, ht => by simp [exLit] at ht
  | quote, Nat.succ f, c :: cs, h, ht => by
    rw [exLit_succ] at ht ⊢
    by_cases hbs : c = '\\'
    · rw [if_pos hbs] at ht ⊢
      match cs with
      | [] => simp at ht
      | e :: cs' =>
        dsimp only at ht ⊢
        have hf : cs'.length ≤ f := by simp at h; omega
        obtain ⟨raw, hraw, hlen⟩ := exLit_term_decomp quote f cs' hf ht
        refine ⟨c :: e :: raw, ?_, by simp; omega⟩
        simp only [List.cons_append]
        rw [← hraw]
    · rw [if_neg hbs] at ht ⊢
      by_cases hq : c = quote
      · rw [if_pos hq] at ht ⊢
        exact ⟨[], by simp [hq], by simp⟩
      · rw [if_neg hq] at ht ⊢
        by_cases htm : quote = btCh ∧ c = '$' ∧ cs.head? = some '\x7b'
        · rw [if_pos htm] at ht ⊢
          dsimp only at ht ⊢
          obtain ⟨hqbt, hcd, hhead⟩ := htm
          cases cs with
          | nil => simp at hhead
          | cons c0 cs'' =>
            have hc0 : c0 = '\x7b' := by simpa using hhead
            subst hc0
            have hdrop : ('\x7b' :: cs'').drop 1 = cs'' := rfl
            rw [hdrop] at ht ⊢
            obtain ⟨pre, hpre, hprelen⟩ :=
              skipTemplExpr_decomp cs''.length 1 cs'' (le_refl _)
            have hf : (skipTemplExpr cs''.length 1 cs'').2.length ≤ f := by
              have h1 := congrArg List.length hpre
              simp only [List.length_append] at h1
              simp only [List.length_cons] at h
              omega
            obtain ⟨raw, hraw, hlen⟩ :=
              exLit_term_decomp quote f (skipTemplExpr cs''.length 1 cs'').2 hf ht
            refine ⟨c :: '\x7b' :: (pre ++ raw), ?_, by simp; omega⟩
            simp only [List.cons_append, List.append_assoc]
            rw [← hraw, ← hpre]
        · rw [if_neg htm] at ht ⊢
          dsimp only at ht ⊢
          have hf : cs.length ≤ f := by simp at h; omega
          obtain ⟨raw, hraw, hlen⟩ := exLit_term_decomp quote f cs hf ht
          refine ⟨c :: raw, ?_, by simp; omega⟩
          simp only [List.cons_append]
          rw [← hraw]

theorem exStrAux_succ (f pos : Nat) (c : Char) (cs : Str) :
    exStrAux (Nat.succ f) pos (c :: cs) =
      (if c = '/' ∧ cs.head? = some '/' then
        let rest := cs.drop 1
        let k := (rest.takeWhile (fun x => x ≠ '\n')).length
        exStrAux f (pos + 2 + k) (rest.drop k)
      else if c = '/' ∧ cs.head? = some '*' then
        match findCloseComment (cs.drop 1) with
        | some n => exStrAux f (pos + 2 + n) ((cs.drop 1).drop n)
        | none => []
      else if c = '"' ∨ c = sqCh ∨ c = btCh then
        let r := exLit c cs.length cs
        if r.term then
          ⟨pos, pos + 1 + r.consumed, r.value, c⟩ :: exStrAux f (pos + 1 + r.consumed) r.rest
        else []
      else exStrAux f (pos + 1) cs) := rfl

theorem exStrAux_start_lb : ∀ (f pos : Nat) (s : Str) (tok : JSTok),
    tok ∈ exStrAux f pos s → pos ≤ tok.start
  | 0, _, _, tok => by intro h; simp [exStrAux] at h
  | Nat.succ f, pos, [], tok => by intro h; simp [exStrAux] at h
  | Nat.succ f, pos, c :: cs, tok => by
    intro h
    rw [exStrAux_succ] at h
    dsimp only at h
    by_cases h1 : c = '/' ∧ cs.head? = some '/'
    · rw [if_pos h1] at h
      have := exStrAux_start_lb f (pos + 2 + _) _ tok h
      omega
    · rw [if_neg h1] at h
      by_cases h2 : c = '/' ∧ cs.head? = some '*'
      · rw [if_pos h2] at h
        match hfc : findCloseComment (cs.drop 1), h with
        | some n, h =>
          dsimp only at h
          have := exStrAux_start_lb f (pos + 2 + n) _ tok h
          omega
        | none, h => simp at h
      · rw [if_neg h2] at h
        by_cases h3 : c = '"' ∨ c = sqCh ∨ c = btCh
        · rw [if_pos h3] at h
          by_cases h4 : (exLit c cs.length cs).term
          · rw [if_pos h4] at h
            rcases List.mem_cons.mp h with rfl | h'
            · exact le_refl _
            · have := exStrAux_start_lb f (pos + 1 + _) _ tok h'
              omega
          · rw [if_neg h4] at h
            simp at h
        · rw [if_neg h3] at h
          have := exStrAux_start_lb f (pos + 1) cs tok h
          omega

theorem exStrAux_pairwise : ∀ (f pos : Nat) (s : Str),
    (exStrAux f pos s).Pairwise (fun a b => a.stop ≤ b.start)
  | 0, _, _ => by simp [exStrAux]
  | Nat.succ f, pos, [] => by simp [exStrAux]
  | Nat.succ f, pos, c :: cs => by
    rw [exStrAux_succ]
    dsimp only
    by_cases h1 : c = '/' ∧ cs.head? = some '/'
    · rw [if_pos h1]
      exact exStrAux_pairwise f _ _
    · rw [if_neg h1]
      by_cases h2 : c = '/' ∧ cs.head? = some '*'
      · rw [if_pos h2]
        match findCloseComment (cs.drop 1) with
        | some n => exact exStrAux_pairwise f _ _
        | none => simp
      · rw [if_neg h2]
        by_cases h3 : c = '"' ∨ c = sqCh ∨ c = btCh
        · rw [if_pos h3]
          by_cases h4 : (exLit c cs.length cs).term
          · rw [if_pos h4]
            refine List.Pairwise.cons ?_ (exStrAux_pairwise f _ _)
            intro b hb
            exact exStrAux_start_lb f _ _ b hb
          · rw [if_neg h4]
            simp
        · rw [if_neg h3]
          exact exStrAux_pairwise f _ _


theorem exStrAux_decomp : ∀ (f pos : Nat) (s js : Str), s = js.drop pos → s.length ≤ f →
    ∀ tok ∈ exStrAux f pos s,
      ∃ rawInner : Str,
        js.drop tok.start = tok.quote :: (rawInner ++ tok.quote :: js.drop tok.stop) ∧
        tok.start + 1 + rawInner.length + 1 = tok.stop
  | 0, _, _, _, _, _, tok, htok => by simp [exStrAux] at htok
  | Nat.succ f, pos, [], _, _, _, tok, htok => by simp [exStrAux] at htok
  | Nat.succ f, pos, c :: cs, js, hs, hf, tok, htok => by
    rw [exStrAux_succ] at htok
    dsimp only at htok
    have hcs : cs = js.drop (pos + 1) := by
      have h1 : (js.drop pos).drop 1 = js.drop (pos + 1) := List.drop_drop 1 pos js
      rw [← hs] at h1
      simpa using h1
    by_cases h1 : c = '/' ∧ cs.head? = some '/'
    · rw [if_pos h1] at htok
      have hnext : (cs.drop 1).drop ((cs.drop 1).takeWhile (fun x => x ≠ '\n')).length
          = js.drop (pos + 2 + ((cs.drop 1).takeWhile (fun x => x ≠ '\n')).length) := by
        rw [hcs, List.drop_drop, List.drop_drop]
        congr 1
        omega
      refine exStrAux_decomp f _ _ js hnext ?_ tok htok
      simp only [List.length_drop, List.length_cons] at hf ⊢
      omega
    · rw [if_neg h1] at htok
      by_cases h2 : c = '/' ∧ cs.head? = some '*'
      · rw [if_pos h2] at htok
        match hfc : findCloseComment (cs.drop 1), htok with
        | some n, htok =>
          dsimp only at htok
          have hnext : (cs.drop 1).drop n = js.drop (pos + 2 + n) := by
            rw [hcs, List.drop_drop, List.drop_drop]
            congr 1
            omega
          refine exStrAux_decomp f _ _ js hnext ?_ tok htok
          simp only [List.length_drop, List.length_cons] at hf ⊢
          omega
        | none, htok => simp at htok
      · rw [if_neg h2] at htok
        by_cases h3 : c = '"' ∨ c = sqCh ∨ c = btCh
        · rw [if_pos h3] at htok
          by_cases h4 : (exLit c cs.length cs).term
          · rw [if_pos h4] at htok
            obtain ⟨raw, hraw, hrawlen⟩ := exLit_term_decomp c cs.length cs (le_refl _) h4
            set E := exLit c cs.length cs with hE
            have hd : cs.drop E.consumed = E.rest := by
              rw [← hrawlen]
              conv_lhs => rw [hraw]
              rw [show raw ++ c :: E.rest = (raw ++ [c]) ++ E.rest by simp]
              exact List.drop_left' (by simp)
            have hreststop : E.rest = js.drop (pos + 1 + E.consumed) := by
              rw [← hd, hcs, List.drop_drop]
            rcases List.mem_cons.mp htok with rfl | htok2
            · refine ⟨raw, ?_, by simp; omega⟩
              show js.drop pos = c :: (raw ++ c :: js.drop (pos + 1 + E.consumed))
              rw [← hs, ← hreststop]
              rw [hraw]
            · refine exStrAux_decomp f _ _ js hreststop ?_ tok htok2
              have hrl := congrArg List.length hraw
              simp only [List.length_append, List.length_cons] at hrl
              simp only [List.length_cons] at hf
              omega
          · rw [if_neg h4] at htok
            simp at htok
        · rw [if_neg h3] at htok
          refine exStrAux_decomp f _ _ js hcs ?_ tok htok
          simp only [List.length_cons] at hf
          omega
theorem foldl_replace_fixed : ∀ (l : List JSTok) (js : Str),
    (∀ tok ∈ l, replaceStringAt js tok.start tok.stop tok.quote tok.value = js) →
    l.foldl (fun acc tok => replaceStringAt acc tok.start tok.stop tok.quote tok.value) js = js
  | [], js, _ => rfl
  | t :: l, js, h => by
    rw [List.foldl_cons, h t (List.mem_cons_self t l)]
    exact foldl_replace_fixed l js (fun tok ht => h tok (List.mem_cons_of_mem t ht))

/-- C7 counterexample: the single-quoted source `'\q'` tokenizes to the
value `q` (unknown escapes pass through as the bare character), so the
identity splice-back re-escapes `q` to `q` and produces `'q'`, not the
original source: splice-back is not the identity on sources with
non-canonical escapes. -/
theorem c7_counterexample_escape :
    extractStrings [sqCh, '\\', 'q', sqCh] = [⟨0, 4, "q".data, sqCh⟩] ∧
    spliceIdentity [sqCh, '\\', 'q', sqCh] = [sqCh, 'q', sqCh] ∧
    spliceIdentity [sqCh, '\\', 'q', sqCh] ≠ [sqCh, '\\', 'q', sqCh] := by
  refine ⟨rfl, rfl, by decide⟩

/-- C7 (amended): the literal spans returned by `extract_strings` are
pairwise disjoint and ordered (each token ends no later than the next
begins); and the right-to-left identity splice-back reproduces the input
exactly when each literal's canonical re-escaping of its value coincides
with its original source spelling between the quotes (which holds for
sources using only canonical escape sequences and no template
interpolation). -/
theorem c7_tokenizer_spans_amended (js : Str) :
    (extractStrings js).Pairwise (fun a b => a.stop ≤ b.start) ∧
    ((∀ tok ∈ extractStrings js,
        escapeForJs tok.value tok.quote = (js.take (tok.stop - 1)).drop (tok.start + 1)) →
      spliceIdentity js = js) := by
  refine ⟨exStrAux_pairwise js.length 0 js, fun h => ?_⟩
  apply foldl_replace_fixed
  intro tok htok
  have htok' : tok ∈ extractStrings js := List.mem_reverse.mp htok
  obtain ⟨inner, heq, harith⟩ :=
    exStrAux_decomp js.length 0 js js (by simp) (le_refl _) tok htok'
  have hdrop1 : js.drop (tok.start + 1) = inner ++ tok.quote :: js.drop tok.stop := by
    have h1 : (js.drop tok.start).drop 1 = js.drop (tok.start + 1) :=
      List.drop_drop 1 tok.start js
    rw [heq] at h1
    simpa using h1.symm
  have hinner : (js.take (tok.stop - 1)).drop (tok.start + 1) = inner := by
    rw [List.drop_take (tok.stop - 1) (tok.start + 1) js, hdrop1]
    rw [show tok.stop - 1 - (tok.start + 1) = inner.length by omega]
    exact List.take_left' rfl
  unfold replaceStringAt
  rw [h tok htok', hinner]
  conv_rhs => rw [← List.take_append_drop tok.start js]
  rw [heq]

theorem c7_tokenizer_spans_amended_witness :
    (extractStrings "var a = 'hi there';".data).Pairwise (fun a b => a.stop ≤ b.start) ∧
    spliceIdentity "var a = 'hi there';".data = "var a = 'hi there';".data := by
  have h := c7_tokenizer_spans_amended "var a = 'hi there';".data
  exact ⟨h.1, h.2 (by decide)⟩


/-!
## Placeholder protection: scanner facts

Every `PROTECT_RE` branch consumes a nonempty prefix of the input and
returns a proper suffix; hence a match `(tok, rest)` decomposes the
input as `tok ++ rest` with `tok ≠ []`.
-/

theorem orElse_some {α : Type} {a : Option α} {f : Unit → Option α} {r : α}
    (h : a.orElse f = some r) : a = some r ∨ f () = some r := by
  cases a with
  | none => right; simpa [Option.orElse] using h
  | some x => left; simpa [Option.orElse] using h

theorem eatCh_sfx {c : Char} {s r : Str} (h : eatCh c s = some r) :
    r.IsSuffix s ∧ r.length < s.length := by
  match s with
  | [] => simp [eatCh] at h
  | x :: xs =>
    simp only [eatCh] at h
    split at h
    · injection h with h; subst h
      exact ⟨List.suffix_cons x xs, by simp⟩
    · cases h

theorem eatCi_sfx {c : Char} {s r : Str} (h : eatCi c s = some r) :
    r.IsSuffix s ∧ r.length < s.length := by
  match s with
  | [] => simp [eatCi] at h
  | x :: xs =>
    simp only [eatCi] at h
    split at h
    · injection h with h; subst h
      exact ⟨List.suffix_cons x xs, by simp⟩
    · cases h

theorem eatOneIf_sfx {p : Char → Bool} {s r : Str} (h : eatOneIf p s = some r) :
    r.IsSuffix s ∧ r.length < s.length := by
  match s with
  | [] => simp [eatOneIf] at h
  | x :: xs =>
    simp only [eatOneIf] at h
    split at h
    · injection h with h; subst h
      exact ⟨List.suffix_cons x xs, by simp⟩
    · cases h

theorem dropWhile_len_le (p : Char → Bool) (s : Str) :
    (s.dropWhile p).length ≤ s.length :=
  (List.dropWhile_suffix p).length_le

theorem dropWhile_sfx_strict {p : Char → Bool} {s : Str}
    (h : s.takeWhile p ≠ []) :
    (s.dropWhile p).IsSuffix s ∧ (s.dropWhile p).length < s.length := by
  refine ⟨List.dropWhile_suffix p, ?_⟩
  have hsplit := congrArg List.length (List.takeWhile_append_dropWhile (p := p) (l := s))
  have hpos : 0 < (s.takeWhile p).length := List.length_pos.mpr h
  simp only [List.length_append] at hsplit
  omega

theorem eatBackslashes1_sfx {s r : Str} (h : eatBackslashes1 s = some r) :
    r.IsSuffix s ∧ r.length < s.length := by
  rw [eatBackslashes1] at h
  by_cases ht : s.takeWhile (fun c => c = '\\') = []
  · rw [if_neg (by simpa using ht)] at h
    cases h
  · rw [if_pos (by simpa using ht)] at h
    injection h with h; subst h
    exact dropWhile_sfx_strict ht

theorem eatClassPlus_sfx {p : Char → Bool} {s r : Str}
    (h : eatClassPlus p s = some r) :
    r.IsSuffix s ∧ r.length < s.length := by
  rw [eatClassPlus] at h
  by_cases ht : s.takeWhile p = []
  · rw [if_neg (by simpa using ht)] at h
    cases h
  · rw [if_pos (by simpa using ht)] at h
    injection h with h; subst h
    exact dropWhile_sfx_strict ht

theorem eatLit_sfx {lit s r : Str} (h : eatLit lit s = some r) :
    r.IsSuffix s ∧ (lit ≠ [] → r.length < s.length) := by
  by_cases hp : lit.isPrefixOf s
  · rw [eatLit, if_pos hp] at h
    injection h with h; subst h
    refine ⟨List.drop_suffix _ _, fun hne => ?_⟩
    have hlen := (List.isPrefixOf_iff_prefix.mp hp).length_le
    have hpos : 0 < lit.length := List.length_pos.mpr hne
    simp only [List.length_drop]
    omega
  · rw [eatLit, if_neg hp] at h
    cases h

theorem ciPrefixOf_le : ∀ {p s : Str}, ciPrefixOf p s = true → p.length ≤ s.length
  | [], _, _ => by simp
  | _ :: _, [], h => by simp [ciPrefixOf] at h
  | p :: ps, c :: cs, h => by
    simp only [ciPrefixOf, Bool.and_eq_true] at h
    simpa using Nat.succ_le_succ (ciPrefixOf_le h.2)

theorem eatLitCi_sfx {lit s r : Str} (h : eatLitCi lit s = some r) :
    r.IsSuffix s ∧ (lit ≠ [] → r.length < s.length) := by
  by_cases hp : ciPrefixOf lit s
  · rw [eatLitCi, if_pos hp] at h
    injection h with h; subst h
    refine ⟨List.drop_suffix _ _, fun hne => ?_⟩
    have hlen := ciPrefixOf_le hp
    have hpos : 0 < lit.length := List.length_pos.mpr hne
    simp only [List.length_drop]
    omega
  · rw [eatLitCi, if_neg hp] at h
    cases h

theorem metaTailGo_sfx : ∀ (k : Nat) {s2 r : Str}, metaTailGo k s2 = some r →
    r.IsSuffix s2 ∧ r.length < s2.length := by
  intro k
  induction k with
  | zero =>
    intro s2 r h
    simp only [metaTailGo] at h
    by_cases ht : s2.takeWhile (fun c => c ≠ '\n') = []
    · rw [if_neg (by simpa using ht)] at h
      cases h
    · rw [if_pos ht] at h
      injection h with h; subst h
      refine ⟨List.drop_suffix _ _, ?_⟩
      have hpos : 0 < (s2.takeWhile (fun c => c ≠ '\n')).length := List.length_pos.mpr ht
      have hle : (s2.takeWhile (fun c => c ≠ '\n')).length ≤ s2.length :=
        (List.takeWhile_prefix _).length_le
      simp only [List.length_drop]
      omega
  | succ k ih =>
    intro s2 r h
    simp only [metaTailGo] at h
    by_cases ht : (s2.drop (k + 1)).takeWhile (fun c => c ≠ '\n') = []
    · rw [if_neg (by simpa using ht)] at h
      exact ih h
    · rw [if_pos ht] at h
      injection h with h; subst h
      refine ⟨(List.drop_suffix _ _).trans (List.drop_suffix _ _), ?_⟩
      have hpos : 0 < ((s2.drop (k + 1)).takeWhile (fun c => c ≠ '\n')).length :=
        List.length_pos.mpr ht
      have hle : ((s2.drop (k + 1)).takeWhile (fun c => c ≠ '\n')).length
          ≤ (s2.drop (k + 1)).length :=
        (List.takeWhile_prefix _).length_le
      simp only [List.length_drop] at hle ⊢
      omega

theorem pb1OptS_sfx (s : Str) : (pb1OptS s).IsSuffix s ∧ (pb1OptS s).length ≤ s.length := by
  match s with
  | [] => exact ⟨List.suffix_refl _, le_refl _⟩
  | [x] => exact ⟨List.suffix_refl _, le_refl _⟩
  | x :: y :: r =>
    rw [pb1OptS]
    split
    · exact ⟨List.suffix_cons _ _, by simp⟩
    · exact ⟨List.suffix_refl _, le_refl _⟩

theorem pb1_sfx {s r : Str} (h : pb1 s = some r) : r.IsSuffix s ∧ r.length < s.length := by
  rw [pb1] at h
  simp only [bind, Option.bind_eq_some] at h
  obtain ⟨s1, h1, s2, h2, s3, h3, h4⟩ := h
  have a1 := eatBackslashes1_sfx h1
  have a2 := eatOneIf_sfx h2
  have a3 := pb1OptS_sfx s2
  have a4 := eatCh_sfx h3
  have a5 := eatCh_sfx h4
  have a7 : (s3.dropWhile (fun c => isAsciiDigit c ∨ isPyWs c ∨ c = ',')).IsSuffix s3 :=
    List.dropWhile_suffix _
  have a6 := dropWhile_len_le (fun c => isAsciiDigit c ∨ isPyWs c ∨ c = ',') s3
  exact ⟨((a5.1.trans a7).trans (a4.1.trans (a3.1.trans a2.1))).trans a1.1,
    by have := a5.1.length_le; have := a4.1.length_le; omega⟩

theorem pb2_sfx {s r : Str} (h : pb2 s = some r) : r.IsSuffix s ∧ r.length < s.length := by
  rw [pb2] at h
  simp only [bind, Option.bind_eq_some] at h
  obtain ⟨s1, h1, s2, h2, s3, h3, hm⟩ := h
  have a1 := eatBackslashes1_sfx h1
  have a2 := eatOneIf_sfx h2
  have a3 := eatOneIf_sfx h3
  cases h4 : eatCh '[' s3 with
  | none =>
    rw [h4] at hm
    injection hm with hm; subst hm
    exact ⟨(a3.1.trans a2.1).trans a1.1, by omega⟩
  | some t1 =>
    rw [h4] at hm
    have a4 := eatCh_sfx h4
    dsimp only at hm
    split at hm
    case h_1 t2 h5 =>
      injection hm with hm; subst hm
      have a5 := eatCh_sfx h5
      have a7 : (List.dropWhile (fun c => isAsciiDigit c ∨ isPyWs c ∨ c = ',' ∨ c = '-') t1).IsSuffix t1 :=
        List.dropWhile_suffix _
      have a6 := dropWhile_len_le (fun c => isAsciiDigit c ∨ isPyWs c ∨ c = ',' ∨ c = '-') t1
      exact ⟨(((a5.1.trans a7).trans a4.1).trans ((a3.1.trans a2.1))).trans a1.1,
        by have := a5.1.length_le; have := a4.1.length_le; omega⟩
    case h_2 h5 =>
      injection hm with hm; subst hm
      exact ⟨(a3.1.trans a2.1).trans a1.1, by omega⟩

theorem pb3_sfx {s r : Str} (h : pb3 s = some r) : r.IsSuffix s ∧ r.length < s.length := by
  rw [pb3] at h
  simp only [bind, Option.bind_eq_some] at h
  obtain ⟨s1, h1, s2, h2, s3, h3, s4, h4, h5⟩ := h
  have a1 := eatBackslashes1_sfx h1
  have a2 := eatOneIf_sfx h2
  have a3 := eatOneIf_sfx h3
  have a4 := eatCh_sfx h4
  have a5 := eatCh_sfx h5
  have a7 : (s4.dropWhile (fun c => isAsciiDigit c ∨ isPyWs c ∨ c = ',' ∨ c = '.' ∨ c = '-')).IsSuffix s4 :=
    List.dropWhile_suffix _
  have a6 := dropWhile_len_le (fun c => isAsciiDigit c ∨ isPyWs c ∨ c = ',' ∨ c = '.' ∨ c = '-') s4
  exact ⟨((a5.1.trans a7).trans (a4.1.trans ((a3.1.trans a2.1)))).trans a1.1,
    by have := a5.1.length_le; have := a4.1.length_le; omega⟩

theorem pb4_sfx {s r : Str} (h : pb4 s = some r) : r.IsSuffix s ∧ r.length < s.length := by
  rw [pb4] at h
  simp only [bind, Option.bind_eq_some] at h
  obtain ⟨s1, h1, s2, h2, s3, h3, h4⟩ := h
  have a1 := eatBackslashes1_sfx h1
  have a2 : s2.IsSuffix s1 ∧ s2.length ≤ s1.length := by
    rcases orElse_some h2 with h' | h2
    · exact ⟨(eatLitCi_sfx h').1, (eatLitCi_sfx h').1.length_le⟩
    rcases orElse_some h2 with h' | h2
    · exact ⟨(eatLitCi_sfx h').1, (eatLitCi_sfx h').1.length_le⟩
    · exact ⟨(eatLitCi_sfx h2).1, (eatLitCi_sfx h2).1.length_le⟩
  have a3 := eatCh_sfx h3
  have a4 := eatCh_sfx h4
  have a7 : (s3.dropWhile (fun c => c ≠ ']')).IsSuffix s3 := List.dropWhile_suffix _
  have a6 := dropWhile_len_le (fun c => c ≠ ']') s3
  exact ⟨((a4.1.trans a7).trans (a3.1.trans a2.1)).trans a1.1,
    by have := a4.1.length_le; have := a3.1.length_le; omega⟩

theorem pb5_sfx {s r : Str} (h : pb5 s = some r) : r.IsSuffix s ∧ r.length < s.length := by
  rw [pb5] at h
  simp only [bind, Option.bind_eq_some] at h
  obtain ⟨s1, h1, h2⟩ := h
  have a1 := eatBackslashes1_sfx h1
  have a2 := eatOneIf_sfx h2
  exact ⟨a2.1.trans a1.1, by omega⟩

theorem pb6_sfx {s r : Str} (h : pb6 s = some r) : r.IsSuffix s ∧ r.length < s.length := by
  rw [pb6] at h
  simp only [bind, Option.bind_eq_some] at h
  obtain ⟨s1, h1, s2, h2, s3, h3, h4⟩ := h
  have a1 := eatCh_sfx h1
  have a2 := eatCh_sfx h2
  have a3 := eatClassPlus_sfx h3
  have a4 := eatCh_sfx h4
  exact ⟨((a4.1.trans a3.1).trans a2.1).trans a1.1, by omega⟩

theorem pb7_sfx {s r : Str} (h : pb7 s = some r) : r.IsSuffix s ∧ r.length < s.length := by
  rw [pb7] at h
  simp only [bind, Option.bind_eq_some] at h
  obtain ⟨s1, h1, s2, h2, s3, h3, h4⟩ := h
  have a1 := eatCh_sfx h1
  have a2 := eatCh_sfx h2
  have a3 := eatClassPlus_sfx h3
  have a4 := eatCh_sfx h4
  exact ⟨((a4.1.trans a3.1).trans a2.1).trans a1.1, by omega⟩

theorem pb8Kw_sfx {kw s r : Str} (h : pb8Kw kw s = some r) :
    r.IsSuffix s ∧ r.length < s.length := by
  rw [pb8Kw] at h
  simp only [bind, Option.bind_eq_some] at h
  obtain ⟨s1, h1, s2, h2, h3⟩ := h
  have a1 := eatLitCi_sfx h1
  have a2 := eatCh_sfx h2
  have a3 := metaTailGo_sfx _ h3
  exact ⟨(a3.1.trans a2.1).trans a1.1, by have := a1.1.length_le; omega⟩

theorem pb8_sfx {prev : Option Char} {s r : Str} (h : pb8 prev s = some r) :
    r.IsSuffix s ∧ r.length < s.length := by
  simp only [pb8] at h
  split at h
  · rcases orElse_some h with h' | h
    · exact pb8Kw_sfx h'
    rcases orElse_some h with h' | h
    · exact pb8Kw_sfx h'
    rcases orElse_some h with h' | h
    · exact pb8Kw_sfx h'
    rcases orElse_some h with h' | h
    · exact pb8Kw_sfx h'
    · exact pb8Kw_sfx h
  · cases h

theorem pb9_sfx {s r : Str} (h : pb9 s = some r) : r.IsSuffix s ∧ r.length < s.length := by
  rw [pb9] at h
  simp only [bind, Option.bind_eq_some] at h
  obtain ⟨s1, h1, s2, h2, h3⟩ := h
  have a1 := eatCh_sfx h1
  have a2 := eatClassPlus_sfx h2
  have a3 := eatCh_sfx h3
  exact ⟨(a3.1.trans a2.1).trans a1.1, by omega⟩

theorem pb10_sfx {s r : Str} (h : pb10 s = some r) : r.IsSuffix s ∧ r.length < s.length := by
  rw [pb10] at h
  simp only [bind, Option.bind_eq_some] at h
  obtain ⟨s1, h1, s2, h2, h3⟩ := h
  have a1 := eatLit_sfx h1
  have a2 := eatClassPlus_sfx h2
  have a3 := eatLit_sfx h3
  exact ⟨(a3.1.trans a2.1).trans a1.1,
    by have := a1.2 (by simp); have := a3.1.length_le; omega⟩

theorem pb11_sfx {s r : Str} (h : pb11 s = some r) : r.IsSuffix s ∧ r.length < s.length := by
  rw [pb11] at h
  simp only [bind, Option.bind_eq_some] at h
  obtain ⟨s1, h1, s2, h2, h3⟩ := h
  have a1 := eatLit_sfx h1
  have a2 := eatClassPlus_sfx h2
  have a3 := eatLit_sfx h3
  exact ⟨(a3.1.trans a2.1).trans a1.1,
    by have := a1.2 (by simp); have := a3.1.length_le; omega⟩

theorem pb12_sfx {s r : Str} (h : pb12 s = some r) : r.IsSuffix s ∧ r.length < s.length := by
  rw [pb12] at h
  split at h
  · injection h with h; subst h
    refine dropWhile_sfx_strict ?_
    intro hnil
    simp [hnil] at *
  · cases h

theorem pb13_sfx {s r : Str} (h : pb13 s = some r) : r.IsSuffix s ∧ r.length < s.length := by
  rw [pb13] at h
  simp only [bind, Option.bind_eq_some] at h
  obtain ⟨s1, h1, h2⟩ := h
  have a1 := eatBackslashes1_sfx h1
  have a2 := eatCh_sfx h2
  exact ⟨a2.1.trans a1.1, by omega⟩

theorem pb14_sfx {s r : Str} (h : pb14 s = some r) : r.IsSuffix s ∧ r.length < s.length := by
  rw [pb14] at h
  simp only [bind, Option.bind_eq_some] at h
  obtain ⟨s1, h1, h2⟩ := h
  have a1 := eatBackslashes1_sfx h1
  have a2 := eatCh_sfx h2
  exact ⟨a2.1.trans a1.1, by omega⟩

theorem pb15Go_sfx : ∀ (n : Nat) {s1 r : Str}, pb15Go s1 n = some r → r.IsSuffix s1 := by
  intro n
  induction n with
  | zero => intro s1 r h; cases h
  | succ n ih =>
    intro s1 r h
    rw [pb15Go] at h
    split at h
    · injection h with h; subst h
      exact (List.drop_suffix _ _).trans (List.drop_suffix _ _)
    · exact ih h

theorem pb15_sfx {s r : Str} (h : pb15 s = some r) : r.IsSuffix s ∧ r.length < s.length := by
  rw [pb15] at h
  simp only [bind, Option.bind_eq_some] at h
  obtain ⟨s1, h1, h2⟩ := h
  have a1 := eatLitCi_sfx h1
  split at h2
  · have a2 := pb15Go_sfx _ h2
    exact ⟨a2.trans a1.1, by
      have := a2.length_le
      have := a1.2 (by simp)
      omega⟩
  · cases h2

theorem matchProtect_spec {prev : Option Char} {s tok rest : Str}
    (h : matchProtect prev s = some (tok, rest)) :
    s = tok ++ rest ∧ tok ≠ [] := by
  simp only [matchProtect] at h
  split at h
  case h_2 => cases h
  case h_1 r heq =>
    injection h with h
    rw [Prod.mk.injEq] at h
    obtain ⟨htok, hrest⟩ := h
    subst hrest
    have hr : r.IsSuffix s ∧ r.length < s.length := by
      rcases orElse_some heq with h' | heq
      · exact pb1_sfx h'
      rcases orElse_some heq with h' | heq
      · exact pb2_sfx h'
      rcases orElse_some heq with h' | heq
      · exact pb3_sfx h'
      rcases orElse_some heq with h' | heq
      · exact pb4_sfx h'
      rcases orElse_some heq with h' | heq
      · exact pb5_sfx h'
      rcases orElse_some heq with h' | heq
      · exact pb6_sfx h'
      rcases orElse_some heq with h' | heq
      · exact pb7_sfx h'
      rcases orElse_some heq with h' | heq
      · exact pb8_sfx h'
      rcases orElse_some heq with h' | heq
      · exact pb9_sfx h'
      rcases orElse_some heq with h' | heq
      · exact pb10_sfx h'
      rcases orElse_some heq with h' | heq
      · exact pb11_sfx h'
      rcases orElse_some heq with h' | heq
      · exact pb12_sfx h'
      rcases orElse_some heq with h' | heq
      · exact pb13_sfx h'
      rcases orElse_some heq with h' | heq
      · exact pb14_sfx h'
      · exact pb15_sfx heq
    obtain ⟨pre, hpre⟩ := hr.1
    have hlen := congrArg List.length hpre
    simp only [List.length_append] at hlen
    have hpreTok : s.take (s.length - r.length) = pre := by
      have hn : s.length - r.length = pre.length := by omega
      rw [hn, ← hpre, List.take_left' rfl]
    constructor
    · rw [← htok, hpreTok, hpre]
    · rw [← htok, hpreTok]
      intro hnil
      rw [hnil] at hlen
      simp only [List.length_nil, Nat.zero_add] at hlen
      have := hr.2
      omega

/-!
### The protection scan: reconstruction, membership, and the key map
-/

theorem protectScan_zero (prev : Option Char) (s : Str) (n : Nat) :
    protectScan 0 prev s n = s.map PSeg.plain := by
  cases s <;> rfl

theorem protectScan_succ_nil (f : Nat) (prev : Option Char) (n : Nat) :
    protectScan (Nat.succ f) prev [] n = [] := rfl

theorem renderOriginal_map_plain : ∀ s : Str, renderOriginal (s.map PSeg.plain) = s
  | [] => rfl
  | c :: cs => by
    rw [List.map_cons, renderOriginal, renderOriginal_map_plain cs]

theorem protectScan_orig : ∀ (f : Nat) (prev : Option Char) (s : Str) (n : Nat),
    renderOriginal (protectScan f prev s n) = s := by
  intro f
  induction f with
  | zero => intro prev s n; rw [protectScan_zero]; exact renderOriginal_map_plain s
  | succ f ih =>
    intro prev s n
    match s with
    | [] => rfl
    | c :: cs =>
      rw [protectScan]
      cases hm : matchProtect prev (c :: cs) with
      | none =>
        dsimp only
        rw [renderOriginal, ih]
      | some pr =>
        obtain ⟨tok, rest⟩ := pr
        dsimp only
        obtain ⟨hsplit, -⟩ := matchProtect_spec hm
        split
        · rw [renderOriginal, ih]
          exact hsplit.symm
        · rw [renderOriginal, ih]
          exact hsplit.symm

theorem containsSub_single {x : Char} : ∀ (t : Str), containsSub [x] t = true ↔ x ∈ t
  | [] => by simp [containsSub, List.isPrefixOf]
  | c :: cs => by
    rw [containsSub, Bool.or_eq_true, containsSub_single cs]
    simp [List.isPrefixOf]

theorem mem_of_containsSub : ∀ {p t : Str}, containsSub p t = true → ∀ c ∈ p, c ∈ t := by
  intro p t
  induction t with
  | nil =>
    intro h c hc
    cases p with
    | nil => cases hc
    | cons a as => simp [containsSub, List.isPrefixOf] at h
  | cons a as ih =>
    intro h c hc
    rw [containsSub, Bool.or_eq_true] at h
    rcases h with h | h
    · exact (List.isPrefixOf_iff_prefix.mp h).subset hc
    · exact List.mem_cons_of_mem _ (ih h c hc)

theorem protectScan_plain_mem : ∀ (f : Nat) (prev : Option Char) (s : Str) (n : Nat) (c : Char),
    PSeg.plain c ∈ protectScan f prev s n → c ∈ s := by
  intro f
  induction f with
  | zero =>
    intro prev s n c hc
    rw [protectScan_zero] at hc
    obtain ⟨x, hx, hxe⟩ := List.mem_map.mp hc
    injection hxe with h
    exact h ▸ hx
  | succ f ih =>
    intro prev s n c hc
    match s with
    | [] => rw [protectScan_succ_nil] at hc; cases hc
    | a :: cs =>
      rw [protectScan] at hc
      cases hm : matchProtect prev (a :: cs) with
      | none =>
        rw [hm] at hc
        dsimp only at hc
        rcases List.mem_cons.mp hc with he | ht
        · injection he with h
          exact h ▸ List.mem_cons_self a cs
        · exact List.mem_cons_of_mem _ (ih _ _ _ _ ht)
      | some pr =>
        obtain ⟨tok, rest⟩ := pr
        rw [hm] at hc
        dsimp only at hc
        obtain ⟨hsplit, -⟩ := matchProtect_spec hm
        rw [hsplit]
        split at hc
        · rcases List.mem_cons.mp hc with he | ht
          · cases he
          · exact List.mem_append_right _ (ih _ _ _ _ ht)
        · rcases List.mem_cons.mp hc with he | ht
          · cases he
          · exact List.mem_append_right _ (ih _ _ _ _ ht)

theorem protectScan_keyed_mem : ∀ (f : Nat) (prev : Option Char) (s : Str) (n : Nat)
    (kind : Str) (i : Nat) (tok : Str),
    PSeg.keyed kind i tok ∈ protectScan f prev s n →
    kind = classifyKind tok ∧ tok ≠ [] ∧ ∃ a b, s = a ++ (tok ++ b) := by
  intro f
  induction f with
  | zero =>
    intro prev s n kind i tok hc
    rw [protectScan_zero] at hc
    obtain ⟨x, hx, hxe⟩ := List.mem_map.mp hc
    cases hxe
  | succ f ih =>
    intro prev s n kind i tok hc
    match s with
    | [] => rw [protectScan_succ_nil] at hc; cases hc
    | a :: cs =>
      rw [protectScan] at hc
      cases hm : matchProtect prev (a :: cs) with
      | none =>
        rw [hm] at hc
        dsimp only at hc
        rcases List.mem_cons.mp hc with he | ht
        · cases he
        · obtain ⟨h1, h2, b1, b2, h3⟩ := ih _ _ _ _ _ _ ht
          exact ⟨h1, h2, a :: b1, b2, by rw [List.cons_append, ← h3]⟩
      | some pr =>
        obtain ⟨tok0, rest⟩ := pr
        rw [hm] at hc
        dsimp only at hc
        obtain ⟨hsplit, htne⟩ := matchProtect_spec hm
        split at hc
        · rcases List.mem_cons.mp hc with he | ht
          · cases he
          · obtain ⟨h1, h2, b1, b2, h3⟩ := ih _ _ _ _ _ _ ht
            exact ⟨h1, h2, tok0 ++ b1, b2, by rw [hsplit, h3, List.append_assoc]⟩
        · rcases List.mem_cons.mp hc with he | ht
          · injection he with e1 e2 e3
            subst e3
            exact ⟨e1, htne, [], rest, hsplit⟩
          · obtain ⟨h1, h2, b1, b2, h3⟩ := ih _ _ _ _ _ _ ht
            exact ⟨h1, h2, tok0 ++ b1, b2, by rw [hsplit, h3, List.append_assoc]⟩

theorem protectScan_skipped_mem : ∀ (f : Nat) (prev : Option Char) (s : Str) (n : Nat)
    (tok : Str), PSeg.skipped tok ∈ protectScan f prev s n → '⟦' ∈ s := by
  intro f
  induction f with
  | zero =>
    intro prev s n tok hc
    rw [protectScan_zero] at hc
    obtain ⟨x, hx, hxe⟩ := List.mem_map.mp hc
    cases hxe
  | succ f ih =>
    intro prev s n tok hc
    match s with
    | [] => rw [protectScan_succ_nil] at hc; cases hc
    | a :: cs =>
      rw [protectScan] at hc
      cases hm : matchProtect prev (a :: cs) with
      | none =>
        rw [hm] at hc
        dsimp only at hc
        rcases List.mem_cons.mp hc with he | ht
        · cases he
        · exact List.mem_cons_of_mem _ (ih _ _ _ _ ht)
      | some pr =>
        obtain ⟨tok0, rest⟩ := pr
        rw [hm] at hc
        dsimp only at hc
        obtain ⟨hsplit, -⟩ := matchProtect_spec hm
        rw [hsplit]
        split at hc
        · rcases List.mem_cons.mp hc with he | ht
          · injection he with e1
            subst e1
            rename_i hcond
            have hbr : containsSub "⟦".data tok = true := by
              simpa using And.left (by simpa using hcond)
            exact List.mem_append_left _ ((containsSub_single tok).mp hbr)
          · exact List.mem_append_right _ (ih _ _ _ _ ht)
        · rcases List.mem_cons.mp hc with he | ht
          · cases he
          · exact List.mem_append_right _ (ih _ _ _ _ ht)

theorem collectMap_plain_cons (c : Char) (rest : List PSeg) :
    collectMap (PSeg.plain c :: rest) = collectMap rest := rfl

theorem collectMap_skipped_cons (tok : Str) (rest : List PSeg) :
    collectMap (PSeg.skipped tok :: rest) = collectMap rest := rfl

theorem collectMap_keyed_cons (kind : Str) (i : Nat) (tok : Str) (rest : List PSeg) :
    collectMap (PSeg.keyed kind i tok :: rest)
      = (mkKey kind i, tok) :: collectMap rest := rfl

theorem collectMap_map_plain : ∀ s : Str, collectMap (s.map PSeg.plain) = []
  | [] => rfl
  | c :: cs => by
    rw [List.map_cons, collectMap_plain_cons, collectMap_map_plain cs]

theorem collect_get : ∀ (f : Nat) (prev : Option Char) (s : Str) (n j : Nat)
    (hj : j < (collectMap (protectScan f prev s n)).length),
    ∃ tok, (collectMap (protectScan f prev s n)).get ⟨j, hj⟩
      = (mkKey (classifyKind tok) (n + j), tok) := by
  intro f
  induction f with
  | zero =>
    intro prev s n j hj
    exact absurd hj (by rw [protectScan_zero, collectMap_map_plain]; simp)
  | succ f ih =>
    intro prev s n j hj
    match s with
    | [] => exact absurd hj (by rw [protectScan_succ_nil]; simp [collectMap])
    | c :: cs =>
      revert hj
      rw [protectScan]
      cases hm : matchProtect prev (c :: cs) with
      | none =>
        dsimp only
        rw [collectMap_plain_cons]
        intro hj
        exact ih _ _ _ _ hj
      | some pr =>
        obtain ⟨tok0, rest⟩ := pr
        dsimp only
        by_cases hsk : containsSub "⟦".data tok0 ∧ containsSub "⟧".data tok0
        · rw [if_pos hsk, collectMap_skipped_cons]
          intro hj
          exact ih _ _ _ _ hj
        · rw [if_neg hsk, collectMap_keyed_cons]
          intro hj
          match j with
          | 0 => exact ⟨tok0, by simp⟩
          | Nat.succ j =>
            obtain ⟨tok, htok⟩ := ih tok0.getLast? rest (n + 1) j (by
              simpa using Nat.lt_of_succ_lt_succ hj)
            refine ⟨tok, ?_⟩
            rw [List.get_cons_succ, htok]
            have : n + 1 + j = n + (j + 1) := by omega
            rw [this]

theorem natReprAux_digit : ∀ (fuel m : Nat) (acc : Str),
    (∀ c ∈ acc, ∃ d, d < 10 ∧ c = digitChar d) →
    ∀ c ∈ natReprAux fuel m acc, ∃ d, d < 10 ∧ c = digitChar d := by
  intro fuel
  induction fuel with
  | zero =>
    intro m acc hacc c hc
    rw [natReprAux] at hc
    rcases List.mem_cons.mp hc with he | ht
    · exact ⟨m % 10, Nat.mod_lt _ (by omega), he⟩
    · exact hacc c ht
  | succ fuel ih =>
    intro m acc hacc c hc
    rw [natReprAux] at hc
    split at hc
    · rcases List.mem_cons.mp hc with he | ht
      · exact ⟨m, by assumption, he⟩
      · exact hacc c ht
    · refine ih _ _ ?_ c hc
      intro x hx
      rcases List.mem_cons.mp hx with he | ht
      · exact ⟨m % 10, Nat.mod_lt _ (by omega), he⟩
      · exact hacc x ht

theorem natRepr_digit {n : Nat} {c : Char} (h : c ∈ natRepr n) :
    ∃ d, d < 10 ∧ c = digitChar d :=
  natReprAux_digit n n [] (by simp) c h

theorem isAsciiDigit_digitChar {d : Nat} (h : d < 10) :
    isAsciiDigit (digitChar d) = true := by
  interval_cases d <;> decide

theorem natRepr_filter_digit (n : Nat) :
    (natRepr n).filter isAsciiDigit = natRepr n :=
  List.filter_eq_self.mpr (fun c hc => by
    obtain ⟨d, hd, rfl⟩ := natRepr_digit hc
    exact isAsciiDigit_digitChar hd)

theorem mkKey_filter (kind : Str) (i : Nat)
    (hk : kind.filter isAsciiDigit = []) :
    (mkKey kind i).filter isAsciiDigit = natRepr i := by
  have h1 : ("⟦RLPH_".data : Str).filter isAsciiDigit = [] := by decide
  have h2 : ("⟧".data : Str).filter isAsciiDigit = [] := by decide
  rw [mkKey, List.filter_append, List.filter_append, List.filter_append,
    h1, h2, hk, natRepr_filter_digit]
  simp

theorem mkKey_id (kind : Str) (i : Nat) (hk : kind.filter isAsciiDigit = []) :
    digitsVal ((mkKey kind i).filter isAsciiDigit) = i := by
  rw [mkKey_filter kind i hk, digitsVal_natRepr]

theorem classifyKind_cases (tok : Str) :
    classifyKind tok = "CMD".data ∨ classifyKind tok = "TAG".data ∨
    classifyKind tok = "SCPT".data ∨ classifyKind tok = "EXT".data ∨
    classifyKind tok = "VAR".data := by
  unfold classifyKind
  split_ifs <;> simp

theorem classifyKind_filter (tok : Str) :
    (classifyKind tok).filter isAsciiDigit = [] := by
  rcases classifyKind_cases tok with h|h|h|h|h <;> rw [h] <;> decide

theorem protect_keys_distinct (f : Nat) (prev : Option Char) (s : Str) (n : Nat) :
    (collectMap (protectScan f prev s n)).Pairwise (fun a b => a.1 ≠ b.1) := by
  rw [List.pairwise_iff_get]
  intro i j hij
  obtain ⟨ti, hti⟩ := collect_get f prev s n i.val i.isLt
  obtain ⟨tj, htj⟩ := collect_get f prev s n j.val j.isLt
  intro heq
  rw [hti, htj] at heq
  simp only at heq
  have hids := congrArg (fun l => digitsVal (List.filter isAsciiDigit l)) heq
  simp only [mkKey_id _ _ (classifyKind_filter ti),
    mkKey_id _ _ (classifyKind_filter tj)] at hids
  omega

/-- **C10**: for every input text, `protect_rpgm_syntax` gives the `j`-th
masked fragment the key `⟦RLPH_<KIND>j⟧` where `j` is the number of
fragments already masked (its prefix classification as `<KIND>`), and
the keys of the returned placeholder map are pairwise distinct, so no
map entry is ever overwritten even when the same fragment occurs
several times. -/
theorem c10_placeholder_keys_fresh (s : Str) :
    (∀ j (hj : j < ( protect_rpgm_syntax s).2.length),
       ∃ tok, ( protect_rpgm_syntax s).2.get ⟨j, hj⟩
         = (mkKey (classifyKind tok) j, tok)) ∧
    ( protect_rpgm_syntax s).2.Pairwise (fun a b => a.1 ≠ b.1) := by
  rw [ protect_rpgm_syntax]
  by_cases hs : s = []
  · rw [if_pos hs]
    exact ⟨fun j hj => absurd hj (by simp), by simp⟩
  · rw [if_neg hs]
    dsimp only
    constructor
    · intro j hj
      obtain ⟨tok, htok⟩ := collect_get s.length none s 0 j hj
      exact ⟨tok, by rw [htok, Nat.zero_add]⟩
    · exact protect_keys_distinct _ _ _ _

theorem c10_placeholder_keys_fresh_witness :
    (∃ tok, ( protect_rpgm_syntax "\\V[1] and \\V[2]".data).2.get
        ⟨1, by decide⟩ = (mkKey (classifyKind tok) 1, tok)) ∧
    ( protect_rpgm_syntax "\\V[1] and \\V[2]".data).2.Pairwise
      (fun a b => a.1 ≠ b.1) :=
  ⟨(c10_placeholder_keys_fresh "\\V[1] and \\V[2]".data).1 1 (by decide),
   (c10_placeholder_keys_fresh "\\V[1] and \\V[2]".data).2⟩

/-!
### Placeholder restore phase 1: parsing the canonical keys
-/


theorem natReprAux_ne_nil : ∀ (fuel m : Nat) (acc : Str), natReprAux fuel m acc ≠ []
  | 0, m, acc => by rw [natReprAux]; simp
  | Nat.succ f, m, acc => by
    rw [natReprAux]
    split
    · simp
    · exact natReprAux_ne_nil f (m / 10) _

theorem natRepr_ne_nil (n : Nat) : natRepr n ≠ [] := natReprAux_ne_nil n n []

theorem isAsciiLetter_not_digitChar {d : Nat} (h : d < 10) :
    isAsciiLetter (digitChar d) = false := by interval_cases d <;> decide

theorem takeWhile_append_all {p : Char → Bool} :
    ∀ {a : Str} (b : Str), (∀ c ∈ a, p c = true) →
      (a ++ b).takeWhile p = a ++ b.takeWhile p
  | [], b, _ => by simp
  | x :: xs, b, h => by
    rw [List.cons_append, List.takeWhile_cons_of_pos (h x (by simp)),
      takeWhile_append_all b (fun c hc => h c (by simp [hc])), List.cons_append]

theorem take_cons_append (p mid Q : Str) (n : Nat)
    (hn : n = p.length + mid.length + 1) :
    List.take n (p ++ (mid ++ '⟧' :: Q)) = p ++ (mid ++ ['⟧']) := by
  have hsh : p ++ (mid ++ '⟧' :: Q) = (p ++ (mid ++ ['⟧'])) ++ Q := by
    simp [List.append_assoc]
  rw [hsh]
  apply List.take_left'
  simp only [List.length_append, List.length_cons, List.length_nil]
  omega

theorem parseFlex_key (kind : Str) (i : Nat) (Q : Str)
    (hkind : kind = "CMD".data ∨ kind = "TAG".data ∨ kind = "SCPT".data ∨
      kind = "EXT".data ∨ kind = "VAR".data) :
    parseFlex (mkKey kind i ++ Q) = some (mkKey kind i, kind ++ natRepr i, Q) := by
  obtain ⟨d, ds, hnd⟩ : ∃ d ds, natRepr i = d :: ds := by
    cases hr : natRepr i with
    | nil => exact absurd hr (natRepr_ne_nil i)
    | cons d ds => exact ⟨d, ds, rfl⟩
  have hdig : ∀ c ∈ natRepr i, isAsciiDigit c = true := fun c hc => by
    obtain ⟨e, he, rfl⟩ := natRepr_digit hc
    exact isAsciiDigit_digitChar he
  have hde : isAsciiDigit d = true := hdig d (by rw [hnd]; simp)
  have hdL : isAsciiLetter d = false := by
    obtain ⟨e, he, hce⟩ := natRepr_digit (n := i) (c := d) (by rw [hnd]; simp)
    rw [hce]; exact isAsciiLetter_not_digitChar he
  have hdsDig : ∀ c ∈ ds, isAsciiDigit c = true := fun c hc =>
    hdig c (by rw [hnd]; simp [hc])
  have htw : (ds ++ '⟧' :: Q).takeWhile isAsciiDigit = ds := by
    rw [takeWhile_append_all _ hdsDig, List.takeWhile_cons_of_neg (by decide)]
    simp
  have hdr : (ds ++ '⟧' :: Q).drop ds.length = '⟧' :: Q := List.drop_left _ _
  have hd4 : ∀ (a b c3 : Char) (X : Str),
      List.drop (3 + (ds.length + 1)) (a :: b :: c3 :: d :: (ds ++ X)) = X := by
    intro a b c3 X
    have harith : 3 + (ds.length + 1) = 4 + ds.length := by omega
    have h4 : List.drop 4 (a :: b :: c3 :: d :: (ds ++ X)) = ds ++ X := rfl
    rw [harith, ← List.drop_drop, h4, List.drop_left]
  have hd5 : ∀ (a b c3 c4 : Char) (X : Str),
      List.drop (4 + (ds.length + 1)) (a :: b :: c3 :: c4 :: d :: (ds ++ X)) = X := by
    intro a b c3 c4 X
    have harith : 4 + (ds.length + 1) = 5 + ds.length := by omega
    have h5 : List.drop 5 (a :: b :: c3 :: c4 :: d :: (ds ++ X)) = ds ++ X := rfl
    rw [harith, ← List.drop_drop, h5, List.drop_left]
  have hlen : (mkKey kind i ++ Q).length - Q.length = (mkKey kind i).length := by
    simp [List.length_append]
  have htake : (mkKey kind i ++ Q).take ((mkKey kind i).length) = mkKey kind i :=
    List.take_left' rfl
  rcases hkind with h|h|h|h|h <;> subst h <;>
    simp +decide [parseFlex, mkKey, hnd, eatCh, eatCi, eatWsStar, ciEq,
      List.takeWhile_cons_of_pos, List.takeWhile_cons_of_neg, hdL, hde,
      htw, hdr, hd4, hd5, hlen, htake, takeWhile_append_all]
  · exact take_cons_append ['⟦','R','L','P','H','_','C','M','D'] (d :: ds) Q
      (ds.length + (List.length Q + 1) + 1 + 1 + 1 + 1 + 1 + 1 + 1 + 1 + 1 + 1 - List.length Q)
      (by simp only [List.length_cons, List.length_nil]; omega)
  · exact take_cons_append ['⟦','R','L','P','H','_','T','A','G'] (d :: ds) Q
      (ds.length + (List.length Q + 1) + 1 + 1 + 1 + 1 + 1 + 1 + 1 + 1 + 1 + 1 - List.length Q)
      (by simp only [List.length_cons, List.length_nil]; omega)
  · exact take_cons_append ['⟦','R','L','P','H','_','S','C','P','T'] (d :: ds) Q
      (ds.length + (List.length Q + 1) + 1 + 1 + 1 + 1 + 1 + 1 + 1 + 1 + 1 + 1 + 1 - List.length Q)
      (by simp only [List.length_cons, List.length_nil]; omega)
  · exact take_cons_append ['⟦','R','L','P','H','_','E','X','T'] (d :: ds) Q
      (ds.length + (List.length Q + 1) + 1 + 1 + 1 + 1 + 1 + 1 + 1 + 1 + 1 + 1 - List.length Q)
      (by simp only [List.length_cons, List.length_nil]; omega)
  · exact take_cons_append ['⟦','R','L','P','H','_','V','A','R'] (d :: ds) Q
      (ds.length + (List.length Q + 1) + 1 + 1 + 1 + 1 + 1 + 1 + 1 + 1 + 1 + 1 - List.length Q)
      (by simp only [List.length_cons, List.length_nil]; omega)


/-!
### Phase 1 inverts the protection of a bracket-free text
-/


theorem parseFlex_not_bracket {c : Char} (x : Str) (hc : c ≠ '⟦') :
    parseFlex (c :: x) = none := by
  simp [parseFlex, eatCh, hc]

theorem map_fixed {g : Char → Char} : ∀ {l : Str}, (∀ c ∈ l, g c = c) → l.map g = l
  | [], _ => rfl
  | x :: xs, h => by
    rw [List.map_cons, h x (by simp), map_fixed (fun c hc => h c (by simp [hc]))]

theorem pyUpperChar_digitChar {d : Nat} (h : d < 10) :
    pyUpperChar (digitChar d) = digitChar d := by interval_cases d <;> decide

theorem pyUpper_natRepr (i : Nat) : pyUpper (natRepr i) = natRepr i :=
  map_fixed (fun c hc => by
    obtain ⟨d, hd, rfl⟩ := natRepr_digit hc
    exact pyUpperChar_digitChar hd)

theorem kind_pyUpper {kind : Str}
    (hkind : kind = "CMD".data ∨ kind = "TAG".data ∨ kind = "SCPT".data ∨
      kind = "EXT".data ∨ kind = "VAR".data) : pyUpper kind = kind := by
  rcases hkind with h|h|h|h|h <;> subst h <;> decide

theorem lookup_of_mem_distinct : ∀ {m : List (Str × Str)} {k v : Str},
    m.Pairwise (fun a b => a.1 ≠ b.1) → (k, v) ∈ m → m.lookup k = some v := by
  intro m
  induction m with
  | nil => intro k v _ hm; cases hm
  | cons e es ih =>
    intro k v hp hm
    obtain ⟨k0, v0⟩ := e
    rw [List.lookup_cons]
    rcases List.mem_cons.mp hm with he | ht
    · rw [Prod.mk.injEq] at he
      obtain ⟨rfl, rfl⟩ := he
      simp
    · have hk : (k == k0) = false := by
        have h1 := (List.pairwise_cons.mp hp).1 (k, v) ht
        simp only at h1
        exact beq_eq_false_iff_ne.mpr (fun hkk => h1 (hkk ▸ rfl))
      rw [hk]
      exact ih (List.pairwise_cons.mp hp).2 ht

theorem renderProtected_plain (c : Char) (rest : List PSeg) :
    renderProtected (PSeg.plain c :: rest) = c :: renderProtected rest := rfl

theorem renderProtected_keyed (kind : Str) (i : Nat) (tok : Str) (rest : List PSeg) :
    renderProtected (PSeg.keyed kind i tok :: rest)
      = mkKey kind i ++ renderProtected rest := rfl

theorem renderOriginal_plain (c : Char) (rest : List PSeg) :
    renderOriginal (PSeg.plain c :: rest) = c :: renderOriginal rest := rfl

theorem renderOriginal_keyed (kind : Str) (i : Nat) (tok : Str) (rest : List PSeg) :
    renderOriginal (PSeg.keyed kind i tok :: rest) = tok ++ renderOriginal rest := rfl

theorem mkKey_len_pos (kind : Str) (i : Nat) : 0 < (mkKey kind i).length := by
  rw [mkKey]
  simp

theorem phase1_render : ∀ (segs : List PSeg) (m : List (Str × Str)) (fuel : Nat),
    (∀ tok, PSeg.skipped tok ∉ segs) →
    (∀ c, PSeg.plain c ∈ segs → c ≠ '⟦') →
    (∀ kind i tok, PSeg.keyed kind i tok ∈ segs →
      (kind = "CMD".data ∨ kind = "TAG".data ∨ kind = "SCPT".data ∨
       kind = "EXT".data ∨ kind = "VAR".data) ∧
      m.lookup (mkKey kind i) = some tok) →
    (renderProtected segs).length ≤ fuel →
    phase1Sub m fuel (renderProtected segs) = renderOriginal segs := by
  intro segs
  induction segs with
  | nil =>
    intro m fuel _ _ _ _
    cases fuel <;> rfl
  | cons sg rest ih =>
    intro m fuel hskip hplain hkey hfuel
    cases sg with
    | skipped tok => exact absurd (List.mem_cons_self _ _) (hskip tok)
    | plain c =>
      have hc : c ≠ '⟦' := hplain c (List.mem_cons_self _ _)
      rw [renderProtected_plain] at hfuel ⊢
      cases fuel with
      | zero => simp at hfuel
      | succ f =>
        rw [phase1Sub, parseFlex_not_bracket _ hc]
        rw [renderOriginal_plain,
          ih m f (fun t ht => hskip t (List.mem_cons_of_mem _ ht))
            (fun c' hc' => hplain c' (List.mem_cons_of_mem _ hc'))
            (fun k i t hk => hkey k i t (List.mem_cons_of_mem _ hk))
            (by simp at hfuel; omega)]
    | keyed kind i tok =>
      have hk := hkey kind i tok (List.mem_cons_self _ _)
      rw [renderProtected_keyed] at hfuel ⊢
      cases fuel with
      | zero =>
        exfalso
        rw [List.length_append] at hfuel
        have := mkKey_len_pos kind i
        omega
      | succ f =>
        have hshape : mkKey kind i ++ renderProtected rest
            = '⟦' :: ("RLPH_".data ++ kind ++ natRepr i ++ "⟧".data
                ++ renderProtected rest) := by
          simp [mkKey, List.append_assoc]
        rw [hshape, phase1Sub, ← hshape, parseFlex_key kind i _ hk.1]
        have hupp : pyUpper (kind ++ natRepr i) = kind ++ natRepr i := by
          rw [pyUpper, List.map_append]
          rw [show List.map pyUpperChar kind = pyUpper kind from rfl,
            show List.map pyUpperChar (natRepr i) = pyUpper (natRepr i) from rfl,
            kind_pyUpper hk.1, pyUpper_natRepr]
        have hkeyeq : "⟦RLPH_".data ++ pyUpper (kind ++ natRepr i) ++ "⟧".data
            = mkKey kind i := by
          rw [hupp, mkKey]
          simp [List.append_assoc]
        dsimp only
        rw [hkeyeq, hk.2]
        dsimp only
        rw [renderOriginal_keyed,
          ih m f (fun t ht => hskip t (List.mem_cons_of_mem _ ht))
            (fun c' hc' => hplain c' (List.mem_cons_of_mem _ hc'))
            (fun k j t hkk => hkey k j t (List.mem_cons_of_mem _ hkk))
            (by
              rw [List.length_append] at hfuel
              have := mkKey_len_pos kind i
              omega)]

/-!
### Phases 0, 2 and the exact-replacement fallback on a bracket-free text
-/


theorem renderProtected_skipped (tok : Str) (rest : List PSeg) :
    renderProtected (PSeg.skipped tok :: rest) = tok ++ renderProtected rest := rfl

theorem renderOriginal_skipped (tok : Str) (rest : List PSeg) :
    renderOriginal (PSeg.skipped tok :: rest) = tok ++ renderOriginal rest := rfl

theorem collect_nil_of_render_nil : ∀ {segs : List PSeg},
    renderProtected segs = [] → collectMap segs = []
  | [], _ => rfl
  | PSeg.plain c :: rest, h => by
    rw [renderProtected_plain] at h; cases h
  | PSeg.keyed kind i tok :: rest, h => by
    rw [renderProtected_keyed] at h
    exfalso
    have h1 := mkKey_len_pos kind i
    have h2 := congrArg List.length h
    simp only [List.length_append, List.length_nil] at h2
    omega
  | PSeg.skipped tok :: rest, h => by
    rw [renderProtected_skipped] at h
    rw [collectMap_skipped_cons]
    exact collect_nil_of_render_nil (List.append_eq_nil.mp h).2

theorem render_eq_of_collect_nil : ∀ {segs : List PSeg},
    collectMap segs = [] → renderProtected segs = renderOriginal segs
  | [], _ => rfl
  | PSeg.plain c :: rest, h => by
    rw [collectMap_plain_cons] at h
    rw [renderProtected_plain, renderOriginal_plain, render_eq_of_collect_nil h]
  | PSeg.keyed kind i tok :: rest, h => by
    rw [collectMap_keyed_cons] at h; cases h
  | PSeg.skipped tok :: rest, h => by
    rw [collectMap_skipped_cons] at h
    rw [renderProtected_skipped, renderOriginal_skipped, render_eq_of_collect_nil h]

theorem collect_mem_of_keyed : ∀ {segs : List PSeg} {kind : Str} {i : Nat} {tok : Str},
    PSeg.keyed kind i tok ∈ segs → (mkKey kind i, tok) ∈ collectMap segs := by
  intro segs
  induction segs with
  | nil => intro _ _ _ h; cases h
  | cons sg rest ih =>
    intro kind i tok h
    rcases List.mem_cons.mp h with he | ht
    · rw [← he, collectMap_keyed_cons]
      exact List.mem_cons_self _ _
    · cases sg with
      | plain c => rw [collectMap_plain_cons]; exact ih ht
      | keyed k2 i2 t2 =>
        rw [collectMap_keyed_cons]; exact List.mem_cons_of_mem _ (ih ht)
      | skipped t2 => rw [collectMap_skipped_cons]; exact ih ht

theorem collect_mem_inv : ∀ {segs : List PSeg} {k v : Str},
    (k, v) ∈ collectMap segs →
    ∃ kind i, k = mkKey kind i ∧ PSeg.keyed kind i v ∈ segs := by
  intro segs
  induction segs with
  | nil => intro k v h; cases h
  | cons sg rest ih =>
    intro k v h
    cases sg with
    | plain c =>
      rw [collectMap_plain_cons] at h
      obtain ⟨kind, i, hk, hmem⟩ := ih h
      exact ⟨kind, i, hk, List.mem_cons_of_mem _ hmem⟩
    | keyed k2 i2 t2 =>
      rw [collectMap_keyed_cons] at h
      rcases List.mem_cons.mp h with he | ht
      · rw [Prod.mk.injEq] at he
        obtain ⟨rfl, rfl⟩ := he
        exact ⟨k2, i2, rfl, List.mem_cons_self _ _⟩
      · obtain ⟨kind, i, hk, hmem⟩ := ih ht
        exact ⟨kind, i, hk, List.mem_cons_of_mem _ hmem⟩
    | skipped t2 =>
      rw [collectMap_skipped_cons] at h
      obtain ⟨kind, i, hk, hmem⟩ := ih h
      exact ⟨kind, i, hk, List.mem_cons_of_mem _ hmem⟩

theorem renderProtected_mem : ∀ (segs : List PSeg) (c : Char), c ∈ renderProtected segs →
    (PSeg.plain c ∈ segs) ∨
    (∃ kind i tok, PSeg.keyed kind i tok ∈ segs ∧ c ∈ mkKey kind i) ∨
    (∃ tok, PSeg.skipped tok ∈ segs ∧ c ∈ tok)
  | [], c, h => by cases h
  | PSeg.plain a :: rest, c, h => by
    rw [renderProtected_plain] at h
    rcases List.mem_cons.mp h with he | ht
    · subst he; exact Or.inl (List.mem_cons_self _ _)
    · rcases renderProtected_mem rest c ht with h1 | ⟨k,i,t,h2,h3⟩ | ⟨t,h2,h3⟩
      · exact Or.inl (List.mem_cons_of_mem _ h1)
      · exact Or.inr (Or.inl ⟨k, i, t, List.mem_cons_of_mem _ h2, h3⟩)
      · exact Or.inr (Or.inr ⟨t, List.mem_cons_of_mem _ h2, h3⟩)
  | PSeg.keyed kind i tok :: rest, c, h => by
    rw [renderProtected_keyed] at h
    rcases List.mem_append.mp h with he | ht
    · exact Or.inr (Or.inl ⟨kind, i, tok, List.mem_cons_self _ _, he⟩)
    · rcases renderProtected_mem rest c ht with h1 | ⟨k,j,t,h2,h3⟩ | ⟨t,h2,h3⟩
      · exact Or.inl (List.mem_cons_of_mem _ h1)
      · exact Or.inr (Or.inl ⟨k, j, t, List.mem_cons_of_mem _ h2, h3⟩)
      · exact Or.inr (Or.inr ⟨t, List.mem_cons_of_mem _ h2, h3⟩)
  | PSeg.skipped tok :: rest, c, h => by
    rw [renderProtected_skipped] at h
    rcases List.mem_append.mp h with he | ht
    · exact Or.inr (Or.inr ⟨tok, List.mem_cons_self _ _, he⟩)
    · rcases renderProtected_mem rest c ht with h1 | ⟨k,j,t,h2,h3⟩ | ⟨t,h2,h3⟩
      · exact Or.inl (List.mem_cons_of_mem _ h1)
      · exact Or.inr (Or.inl ⟨k, j, t, List.mem_cons_of_mem _ h2, h3⟩)
      · exact Or.inr (Or.inr ⟨t, List.mem_cons_of_mem _ h2, h3⟩)

theorem pyUpperChar_ok {c : Char} (hc : c.toNat < 0x391 ∨ 0x500 ≤ c.toNat) :
    pyUpperChar c ≠ Char.ofNat 0x410 ∧ pyUpperChar c ≠ Char.ofNat 0x391 ∧
    pyUpperChar c ≠ Char.ofNat 0x412 := by
  have hofn : ∀ n : Nat, n < 0xD800 → (Char.ofNat n).toNat = n := fun n h => by
    unfold Char.ofNat
    rw [dif_pos (Or.inl h)]
    rfl
  rw [pyUpperChar]
  split_ifs with h1 h2 h3
  · have hb : 97 ≤ c.toNat ∧ c.toNat ≤ 122 := by
      simp [isAsciiLower, Char.le_def, UInt32.le_def] at h1
      exact h1
    refine ⟨?_, ?_, ?_⟩ <;> intro heq <;>
      (have h5 := congrArg Char.toNat heq;
       rw [hofn _ (by omega), hofn _ (by decide)] at h5; omega)
  · exfalso; rcases hc with hc | hc <;> omega
  · exfalso; rcases hc with hc | hc <;> omega
  · refine ⟨?_, ?_, ?_⟩ <;> intro heq <;>
      (have h5 := congrArg Char.toNat heq;
       rw [hofn _ (by decide)] at h5; omega)

theorem key_char_ok {c : Char} {kind : Str} {i : Nat}
    (hkind : kind = "CMD".data ∨ kind = "TAG".data ∨ kind = "SCPT".data ∨
      kind = "EXT".data ∨ kind = "VAR".data)
    (h : c ∈ mkKey kind i) :
    pyUpperChar c ≠ Char.ofNat 0x410 ∧ pyUpperChar c ≠ Char.ofNat 0x391 ∧
    pyUpperChar c ≠ Char.ofNat 0x412 := by
  rw [mkKey] at h
  rcases List.mem_append.mp h with h1 | h4
  rcases List.mem_append.mp h1 with h2 | h3
  rcases List.mem_append.mp h2 with h5 | h6
  · fin_cases h5 <;> refine ⟨by decide, by decide, by decide⟩
  · rcases hkind with hk|hk|hk|hk|hk <;> subst hk <;>
      fin_cases h6 <;> refine ⟨by decide, by decide, by decide⟩
  · obtain ⟨d, hd, rfl⟩ := natRepr_digit h3
    rw [pyUpperChar_digitChar hd]
    interval_cases d <;> refine ⟨by decide, by decide, by decide⟩
  · fin_cases h4 <;> refine ⟨by decide, by decide, by decide⟩

theorem not_mem_pyUpper {x : Char} {P : Str}
    (h : ∀ c ∈ P, pyUpperChar c ≠ x) : containsSub [x] (pyUpper P) = false := by
  rw [Bool.eq_false_iff]
  intro hmem
  obtain ⟨c, hc, hce⟩ := List.mem_map.mp ((containsSub_single _).mp hmem)
  exact h c hc hce

theorem phase2_no_missing (m : List (Str × Str)) (r : Str)
    (h : ∀ p ∈ m, containsSub p.2 r = true) : phase2Heal m r = r := by
  have hfil : m.filter (fun p => !containsSub p.2 r) = [] := by
    rw [List.filter_eq_nil_iff]
    intro p hp
    simp [h p hp]
  rw [phase2Heal]
  split_ifs with hg
  · simp [hfil]
  · rfl

theorem foldl_replace_absent : ∀ (ks : List Str) (m : List (Str × Str)) (t : Str),
    (∀ k ∈ ks, containsSub k t = false) →
    ks.foldl (fun t' k =>
      if containsSub k t' then pyReplace k ((m.lookup k).getD []) t' else t') t = t
  | [], _, _, _ => rfl
  | k :: ks, m, t, h => by
    rw [List.foldl_cons, if_neg (by simp [h k (by simp)])]
    exact foldl_replace_absent ks m t (fun k' hk' => h k' (by simp [hk']))

theorem replaceExact_absent (m : List (Str × Str)) (t : Str)
    (h : ∀ k ∈ m.map Prod.fst, containsSub k t = false) :
    replaceExact m t = t := by
  rw [replaceExact]
  refine foldl_replace_absent _ m t ?_
  intro k hk
  exact h k ((List.perm_insertionSort _ _).mem_iff.mp hk)


/-- **C2 (counterexample)**: the claimed universal round-trip
`restore(protect(s)) = s` fails on the spec's own example `'< tag >'`:
protection masks the whole tag, restore phase 1 brings it back, and the
phase-3 polish regex `<\s*([^>]+)\s*>` then rewrites it to `'<tag >'`. -/
theorem c2_counterexample_spaced_tag :
    restore_rpgm_syntax ( protect_rpgm_syntax "< tag >".data).1
      ( protect_rpgm_syntax "< tag >".data).2 ≠ "< tag >".data := by decide

/-- **C2 (amended)**: for every string `s` that contains neither Unicode
bracket `⟦`/`⟧` nor any character in the Greek/Cyrillic block range
U+0391–U+04FF, and that the phase-3 syntax polish leaves unchanged,
restoring the protection output with its own placeholder map returns
exactly `s`. -/
theorem c2_placeholder_roundtrip_amended (s : Str)
    (hA : ∀ c ∈ s, c ≠ '⟦' ∧ c ≠ '⟧' ∧ (c.toNat < 0x391 ∨ 0x500 ≤ c.toNat))
    (hB : polish3 s = s) :
    restore_rpgm_syntax ( protect_rpgm_syntax s).1 ( protect_rpgm_syntax s).2 = s := by
  by_cases hs : s = []
  · subst hs; rfl
  · rw [ protect_rpgm_syntax, if_neg hs]
    dsimp only
    set segs := protectScan s.length none s 0 with hsegs
    have horig : renderOriginal segs = s := protectScan_orig _ _ _ _
    have hnoskip : ∀ tok, PSeg.skipped tok ∉ segs := by
      intro tok hmem
      exact (hA '⟦' (protectScan_skipped_mem _ _ _ _ _ hmem)).1 rfl
    have hplain : ∀ c, PSeg.plain c ∈ segs → c ≠ '⟦' := fun c hc =>
      (hA c (protectScan_plain_mem _ _ _ _ _ hc)).1
    by_cases hm : collectMap segs = []
    · rw [ restore_rpgm_syntax, if_pos (Or.inr hm)]
      rw [render_eq_of_collect_nil hm, horig]
    · have hPne : renderProtected segs ≠ [] := fun h => hm (collect_nil_of_render_nil h)
      rw [ restore_rpgm_syntax, if_neg (not_or.mpr ⟨hPne, hm⟩)]
      dsimp only
      have hcharok : ∀ c ∈ renderProtected segs,
          pyUpperChar c ≠ Char.ofNat 0x410 ∧ pyUpperChar c ≠ Char.ofNat 0x391 ∧
          pyUpperChar c ≠ Char.ofNat 0x412 := by
        intro c hc
        rcases renderProtected_mem segs c hc with hp | ⟨kind, i, tok, hk, hck⟩ | ⟨tok, hsk, -⟩
        · exact pyUpperChar_ok (hA c (protectScan_plain_mem _ _ _ _ _ hp)).2.2
        · have hkind5 := (protectScan_keyed_mem _ _ _ _ _ _ _ hk).1
          exact key_char_ok (hkind5 ▸ classifyKind_cases tok) hck
        · exact absurd hsk (hnoskip tok)
      rw [if_neg (by
        rw [not_mem_pyUpper (fun c hc => (hcharok c hc).1),
          not_mem_pyUpper (fun c hc => (hcharok c hc).2.1),
          not_mem_pyUpper (fun c hc => (hcharok c hc).2.2)]
        simp)]
      have hdist := protect_keys_distinct s.length none s 0
      have hkeyhyp : ∀ kind i tok, PSeg.keyed kind i tok ∈ segs →
          (kind = "CMD".data ∨ kind = "TAG".data ∨ kind = "SCPT".data ∨
           kind = "EXT".data ∨ kind = "VAR".data) ∧
          (collectMap segs).lookup (mkKey kind i) = some tok := by
        intro kind i tok hk
        have h5 := (protectScan_keyed_mem _ _ _ _ _ _ _ hk).1
        exact ⟨h5 ▸ classifyKind_cases tok,
          lookup_of_mem_distinct (hsegs ▸ hdist) (collect_mem_of_keyed hk)⟩
      have hpresent : ∀ p ∈ collectMap segs, containsSub p.2 s = true := by
        intro p hp
        obtain ⟨k, v⟩ := p
        obtain ⟨kind, i, hkk, hmemseg⟩ := collect_mem_inv hp
        obtain ⟨-, htne, a, b, hab⟩ := protectScan_keyed_mem _ _ _ _ _ _ _ hmemseg
        rw [hab]
        exact containsSub_append_self a v b htne
      have habsent : ∀ k ∈ (collectMap segs).map Prod.fst, containsSub k s = false := by
        intro k hk
        obtain ⟨⟨k', v⟩, hmem, hfst⟩ := List.mem_map.mp hk
        simp only at hfst
        subst hfst
        obtain ⟨kind, i, hkk, -⟩ := collect_mem_inv hmem
        rw [hkk, Bool.eq_false_iff]
        intro hcs
        have hbr : '⟦' ∈ s := mem_of_containsSub hcs '⟦' (by simp [mkKey])
        exact (hA _ hbr).1 rfl
      rw [phase1_render segs _ _ hnoskip hplain hkeyhyp (le_refl _), horig,
        phase2_no_missing _ _ hpresent, replaceExact_absent _ _ habsent]
      exact hB

theorem c2_placeholder_roundtrip_amended_witness :
    restore_rpgm_syntax ( protect_rpgm_syntax "Hello \\V[1] world".data).1
      ( protect_rpgm_syntax "Hello \\V[1] world".data).2
      = "Hello \\V[1] world".data :=
  c2_placeholder_roundtrip_amended "Hello \\V[1] world".data (by decide) (by decide)

end RPGM
